import Mathlib

/-!
Verification of the MicroStrategy treasury-disclosure extraction and
time-series reconstruction pipeline of the crypto-portfolio site
(page data layer of the microstrategy-bitcoin-average-price route).

The TypeScript source is shallowly embedded: JavaScript numbers are
modelled as rationals, UTC epoch-millisecond timestamps as integers,
regular-expression matching as an executable backtracking matcher over
pattern ASTs that mirror the source's regex literals, and the stable
Array.prototype.sort as a stable insertion sort.
-/

set_option maxRecDepth 4096

namespace CryptoPortfolio

/-! ## Basic JavaScript-style character and string utilities -/

/-- JavaScript whitespace as used by the regex class backslash-s and by
String.prototype.trim, restricted to the code points that can occur in
the pipeline's ASCII/Latin-1 texts. -/
def isJsSpace (c : Char) : Bool :=
  c = ' ' ∨ c = '\t' ∨ c = '\n' ∨ c = '\r' ∨
  c = Char.ofNat 11 ∨ c = Char.ofNat 12 ∨ c = Char.ofNat 160

/-- ASCII lower-casing, as String.prototype.toLowerCase acts on ASCII. -/
def jsToLowerChar (c : Char) : Char :=
  if 'A' ≤ c ∧ c ≤ 'Z' then Char.ofNat (c.toNat + 32) else c

/-- Lower-case a character list (ASCII range only). -/
def jsToLower (s : List Char) : List Char := s.map jsToLowerChar

/-- Case-insensitive character equality (ASCII). -/
def ciCharEq (a b : Char) : Bool := jsToLowerChar a = jsToLowerChar b

/-- String.prototype.trim: strip JavaScript whitespace from both ends. -/
def jsTrim (s : List Char) : List Char :=
  ((s.dropWhile isJsSpace).reverse.dropWhile isJsSpace).reverse

/-- Word characters of the regex class backslash-w (ASCII). -/
def isWordChar (c : Char) : Bool :=
  ('A' ≤ c ∧ c ≤ 'Z') ∨ ('a' ≤ c ∧ c ≤ 'z') ∨ ('0' ≤ c ∧ c ≤ '9') ∨ c = '_'

/-- Decimal digit test. -/
def isDigitChar (c : Char) : Bool := '0' ≤ c ∧ c ≤ '9'

/-- Numeric value of a decimal digit character. -/
def digitVal (c : Char) : Nat := c.toNat - '0'.toNat

/-! ## String ordering

The source compares ISO-8601 date strings with the JavaScript relational
operators and with localeCompare; on such digit/hyphen strings both are
plain lexicographic comparison by code unit, embedded executably here. -/

/-- Lexicographic strict order on character lists. -/
def charListLt : List Char → List Char → Bool
  | [], [] => false
  | [], _ :: _ => true
  | _ :: _, [] => false
  | a :: as, b :: bs => if a < b then true else if b < a then false else charListLt as bs

/-- Strict lexicographic order on strings. -/
def strLt (a b : String) : Bool := charListLt a.toList b.toList

/-- Non-strict lexicographic order on strings. -/
def strLe (a b : String) : Bool := !strLt b a

/-! ## Number parsing (Number.parseInt / Number.parseFloat on comma-free text)

The source feeds these functions strings captured by regex groups over
the classes digits/comma/dot, always after stripping commas, so the
embedded parsers cover exactly the decimal forms those captures can take:
a run of digits optionally followed by a dot and more digits (parseFloat
keeps the fractional part, parseInt stops at the dot).  An input with no
leading digit parses to NaN, modelled as none. -/

/-- Longest leading run of decimal digits together with the rest. -/
def spanDigits : List Char → List Char × List Char
  | [] => ([], [])
  | c :: cs =>
    if isDigitChar c then
      let (ds, rest) := spanDigits cs
      (c :: ds, rest)
    else ([], c :: cs)

/-- Value of a digit list read as a decimal natural number. -/
def digitsToNat (ds : List Char) : Nat :=
  ds.foldl (fun acc c => acc * 10 + digitVal c) 0

/-- Number.parseInt(s, 10): leading decimal digits, NaN (none) if there are
none.  The pipeline only ever passes comma-stripped trimmed digit strings. -/
def jsParseInt (s : List Char) : Option Int :=
  let (ds, _) := spanDigits s
  if ds.isEmpty then none else some (digitsToNat ds : Int)

/-- Number.parseFloat: leading decimal literal, NaN (none) when the string
starts with neither a digit nor a dot-digit sequence. -/
def jsParseFloat (s : List Char) : Option ℚ :=
  let (ds, rest) := spanDigits s
  match rest with
  | '.' :: rest' =>
    let (fs, _) := spanDigits rest'
    if ds.isEmpty ∧ fs.isEmpty then none
    else some ((digitsToNat ds : ℚ) + (digitsToNat fs : ℚ) / ((10 : ℚ) ^ fs.length))
  | _ => if ds.isEmpty then none else some (digitsToNat ds : ℚ)

/-- Remove every comma, as value.replace(slash-comma-g, ""). -/
def stripCommas (s : List Char) : List Char := s.filter (fun c => c ≠ ',')

/-- parseNumberLike: strip commas, trim, parseFloat; none models NaN. -/
def parseNumberLike (value : String) : Option ℚ :=
  jsParseFloat (jsTrim (stripCommas value.toList))

/-- parseIntLike: strip commas, trim, parseInt base 10; none models NaN. -/
def parseIntLike (value : String) : Option Int :=
  jsParseInt (jsTrim (stripCommas value.toList))

/-- parseUsdApprox: scale the parsed number by the optional unit word
(billion / million, compared case-insensitively). -/
def parseUsdApprox (value : String) (unit : Option String) : Option ℚ :=
  match parseNumberLike value with
  | none => none
  | some base =>
    let unitNormalized := unit.map (fun u => jsToLower u.toList)
    if unitNormalized = some ("billion".toList) then some (base * 1000000000)
    else if unitNormalized = some ("million".toList) then some (base * 1000000)
    else some base

/-! ## Stable sort model

Array.prototype.sort is stable (ECMAScript 2019), so every comparator
sort in the source is modelled by a stable insertion sort parameterised
by the predicate `keep a b` meaning "a may stay in front of b". -/

/-- Insert an element in front of the first list member it may precede. -/
def stableInsert (keep : α → α → Bool) (x : α) : List α → List α
  | [] => [x]
  | y :: ys => if keep x y then x :: y :: ys else y :: stableInsert keep x ys

/-- Stable insertion sort: earlier elements win ties provided `keep` is
reflexive-on-ties (it is instantiated with non-strict comparisons only). -/
def stableSort (keep : α → α → Bool) : List α → List α
  | [] => []
  | x :: xs => stableInsert keep x (stableSort keep xs)

/-- The element a stable sort brings to the front: the first element that
may precede every later best. -/
def firstBest (keep : α → α → Bool) : List α → Option α
  | [] => none
  | x :: xs =>
    match firstBest keep xs with
    | none => some x
    | some m => if keep x m then some x else some m

/-! ## Regular-expression engine

A small backtracking matcher over a pattern AST.  Each regex literal of
the source is transcribed into an `Re` value below; the matcher follows
JavaScript semantics: leftmost match, left-biased alternation, greedy
and lazy bounded repetition, word boundaries, and numbered capture
groups.  Recursion is bounded by explicit fuel (the matcher is only run
on concrete texts, with fuel far above the attainable recursion depth). -/

/-- Character class: list of inclusive ranges, possibly negated. -/
structure CClass where
  ranges : List (Char × Char)
  negated : Bool
deriving DecidableEq

/-- Membership of a character in a class. -/
def CClass.mem (c : CClass) (ch : Char) : Bool :=
  let inR := c.ranges.any (fun r => r.1 ≤ ch ∧ ch ≤ r.2)
  if c.negated then !inR else inR

/-- Pattern AST mirroring the regex constructs used by the source. -/
inductive Re where
  | eps : Re
  | cls (c : CClass) : Re
  | seq (a b : Re) : Re
  | alt (a b : Re) : Re
  | rep (a : Re) (lo : Nat) (hi : Option Nat) (lazyRep : Bool) : Re
  | grp (idx : Nat) (a : Re) : Re
  | wb : Re
deriving DecidableEq

/-- Matcher position: absolute offset, previous character (for word
boundaries) and the remaining text. -/
structure MPos where
  pos : Nat
  prev : Option Char
  rest : List Char
deriving DecidableEq

/-- Recorded captures: (group index, start offset, stop offset); the most
recent record for a group shadows older ones, as in JavaScript. -/
abbrev Caps := List (Nat × Nat × Nat)

/-- Backtracking matcher in continuation style.  `k` receives the state
after the pattern and either accepts (some) or forces backtracking. -/
def mre (fuel : Nat) (re : Re) (st : MPos) (caps : Caps)
    (k : MPos → Caps → Option (MPos × Caps)) : Option (MPos × Caps) :=
  match fuel with
  | 0 => none
  | fuel + 1 =>
    match re with
    | .eps => k st caps
    | .cls c =>
      match st.rest with
      | [] => none
      | ch :: rest' =>
        if c.mem ch then k ⟨st.pos + 1, some ch, rest'⟩ caps else none
    | .seq a b =>
      mre fuel a st caps (fun st' caps' => mre fuel b st' caps' k)
    | .alt a b =>
      match mre fuel a st caps k with
      | some r => some r
      | none => mre fuel b st caps k
    | .wb =>
      let pw := match st.prev with | none => false | some c => isWordChar c
      let nw := match st.rest with | [] => false | c :: _ => isWordChar c
      if pw ≠ nw then k st caps else none
    | .grp i a =>
      mre fuel a st caps (fun st' caps' => k st' ((i, st.pos, st'.pos) :: caps'))
    | .rep a lo hi lazyRep =>
      if lo > 0 then
        mre fuel a st caps (fun st' caps' =>
          mre fuel (.rep a (lo - 1) (hi.map (· - 1)) lazyRep) st' caps' k)
      else
        match hi with
        | some 0 => k st caps
        | _ =>
          let more := fun (_ : Unit) =>
            mre fuel a st caps (fun st' caps' =>
              if st'.pos = st.pos then none
              else mre fuel (.rep a 0 (hi.map (· - 1)) lazyRep) st' caps' k)
          if lazyRep then
            match k st caps with
            | some r => some r
            | none => more ()
          else
            match more () with
            | some r => some r
            | none => k st caps

/-- Fuel bound for one match attempt over a text of length n. -/
def matchFuel (n : Nat) : Nat := 4 * n + 400

/-- One regex match: start index, stop index, and captured groups. -/
structure MatchRes where
  index : Nat
  stop : Nat
  caps : Caps
deriving DecidableEq

/-- Try to match `re` exactly at state `st` (not anchored elsewhere). -/
def matchAt (re : Re) (st : MPos) : Option MatchRes :=
  match mre (matchFuel (st.rest.length + 1)) re st []
      (fun st' caps' => some (st', caps')) with
  | some (st', caps') => some ⟨st.pos, st'.pos, caps'⟩
  | none => none

/-- Find the leftmost match at or after state `st`, as RegExp.prototype.exec
does: try each successive start position. -/
def findMatchFrom (fuel : Nat) (re : Re) (st : MPos) : Option MatchRes :=
  match fuel with
  | 0 => none
  | fuel + 1 =>
    match matchAt re st with
    | some m => some m
    | none =>
      match st.rest with
      | [] => none
      | c :: rest' => findMatchFrom fuel re ⟨st.pos + 1, some c, rest'⟩

/-- Initial matcher state for a text. -/
def startState (text : List Char) : MPos := ⟨0, none, text⟩

/-- String.prototype.match with a non-global pattern: first match only. -/
def reFirstMatch (re : Re) (text : List Char) : Option MatchRes :=
  findMatchFrom (text.length + 1) re (startState text)

/-- Advance a state by `n` characters. -/
def advanceState (st : MPos) : Nat → MPos
  | 0 => st
  | n + 1 =>
    match st.rest with
    | [] => st
    | c :: rest' => advanceState ⟨st.pos + 1, some c, rest'⟩ n

/-- String.prototype.matchAll: all matches, resuming after each match end
(advancing one character past a zero-length match). -/
def getAllMatchesAux (fuel : Nat) (re : Re) (st : MPos) : List MatchRes :=
  match fuel with
  | 0 => []
  | fuel + 1 =>
    match findMatchFrom (st.rest.length + 1) re st with
    | none => []
    | some m =>
      let skip := if m.stop > m.index then m.stop - st.pos else m.index + 1 - st.pos
      m :: getAllMatchesAux fuel re (advanceState st skip)

/-- getAllMatches of the source: every match of the pattern in the text. -/
def getAllMatches (text : List Char) (re : Re) : List MatchRes :=
  getAllMatchesAux (text.length + 1) re (startState text)

/-- Anchored whole-string match, for the source's `^...$` patterns applied
via String.prototype.match on a trimmed label. -/
def reMatchFull (re : Re) (text : List Char) : Option MatchRes :=
  match mre (matchFuel (text.length + 1)) re (startState text) []
      (fun st' caps' => if st'.rest.isEmpty then some (st', caps') else none) with
  | some (st', caps') => some ⟨0, st'.pos, caps'⟩
  | none => none

/-- Substring of a text by absolute offsets, as captured-group extraction. -/
def subStr (text : List Char) (s e : Nat) : String :=
  String.mk ((text.drop s).take (e - s))

/-- Captured group `i` of a match, as a substring of the matched text. -/
def MatchRes.group (m : MatchRes) (text : List Char) (i : Nat) : Option String :=
  match m.caps.find? (fun c => c.1 = i) with
  | some (_, s, e) => some (subStr text s e)
  | none => none

/-- Captured group with the JavaScript `m[i] ?? ""` default. -/
def MatchRes.groupD (m : MatchRes) (text : List Char) (i : Nat) : String :=
  (m.group text i).getD ""

/-! ### Pattern-building helpers -/

/-- Class holding a single character. -/
def chr (c : Char) : Re := .cls ⟨[(c, c)], false⟩

/-- Case-insensitive single letter (the source patterns carry the i flag). -/
def ichr (c : Char) : Re :=
  if ('a' ≤ c ∧ c ≤ 'z') ∨ ('A' ≤ c ∧ c ≤ 'Z') then
    let l := jsToLowerChar c
    let u := Char.ofNat (l.toNat - 32)
    .cls ⟨[(l, l), (u, u)], false⟩
  else chr c

/-- Sequence of a list of patterns. -/
def seqs (l : List Re) : Re := l.foldr Re.seq .eps

/-- Case-insensitive literal string. -/
def istr (s : String) : Re := seqs (s.toList.map ichr)

/-- The class backslash-s of JavaScript whitespace. -/
def clsSpace : CClass :=
  ⟨[(' ', ' '), ('\t', '\t'), ('\n', '\n'), ('\r', '\r'),
    (Char.ofNat 11, Char.ofNat 12), (Char.ofNat 160, Char.ofNat 160)], false⟩

/-- The pattern backslash-s+ (one or more whitespace). -/
def wsPlus : Re := .rep (.cls clsSpace) 1 none false

/-- The pattern backslash-s* (zero or more whitespace). -/
def wsStar : Re := .rep (.cls clsSpace) 0 none false

/-- The class backslash-d of decimal digits. -/
def clsDigit : CClass := ⟨[('0', '9')], false⟩

/-- Greedy optional pattern. -/
def ropt (a : Re) : Re := .rep a 0 (some 1) false

/-- Greedy plus. -/
def rplus (a : Re) : Re := .rep a 1 none false

/-! ### The source's regex literals -/

/-- Letters, both cases. -/
def clsAlpha : CClass := ⟨[('A', 'Z'), ('a', 'z')], false⟩

/-- Anything but a decimal digit. -/
def clsNotDigit : CClass := ⟨[('0', '9')], true⟩

/-- Anything but a dollar sign. -/
def clsNotDollar : CClass := ⟨[('$', '$')], true⟩

/-- Digits or comma. -/
def clsDigitComma : CClass := ⟨[('0', '9'), (',', ',')], false⟩

/-- Digits, dot or comma. -/
def clsDigitDotComma : CClass := ⟨[('0', '9'), ('.', '.'), (',', ',')], false⟩

/-- Lazy bounded repetition of a class, zero up to n. -/
def lazyUpTo (c : CClass) (n : Nat) : Re := .rep (.cls c) 0 (some n) true

/-- Greedy bounded repetition of a class. -/
def repRange (c : CClass) (lo hi : Nat) : Re := .rep (.cls c) lo (some hi) false

/-- The unit btc or bitcoin(s), case-insensitively. -/
def reBtcWord : Re := .alt (istr "btc") (.seq (istr "bitcoin") (ropt (ichr 's')))

/-- The unit btc or bitcoin (no plural), order bitcoin-first as written. -/
def reBitcoinOrBtc : Re := .alt (istr "bitcoin") (istr "btc")

/-- Holdings amount capture group 1: one or more digits or commas. -/
def reHoldingsNum : Re := .grp 1 (rplus (.cls clsDigitComma))

/-- Optional phrase: an aggregate of / a total of, each space-separated. -/
def reAggPrefix : Re :=
  ropt (.alt
    (seqs [istr "an", wsPlus, istr "aggregate", wsPlus, istr "of", wsPlus])
    (seqs [istr "a", wsPlus, istr "total", wsPlus, istr "of", wsPlus]))

/-- Optional phrase: approximately. -/
def reApprox : Re := ropt (.seq (istr "approximately") wsPlus)

/-- Holdings pattern 1: held ... N btc/bitcoin(s). -/
def reHoldings1 : Re :=
  seqs [.wb, istr "held", wsPlus, reAggPrefix, reApprox, reHoldingsNum,
    wsPlus, reBtcWord, .wb]

/-- Holdings pattern 2: holds? ... N btc/bitcoin(s). -/
def reHoldings2 : Re :=
  seqs [.wb, istr "hold", ropt (ichr 's'), wsPlus, reAggPrefix, reApprox,
    reHoldingsNum, wsPlus, reBtcWord, .wb]

/-- Holdings pattern 3: had ... N btc/bitcoin(s). -/
def reHoldings3 : Re :=
  seqs [.wb, istr "had", wsPlus, reAggPrefix, reApprox, reHoldingsNum,
    wsPlus, reBtcWord, .wb]

/-- Holdings pattern 4: bitcoin holdings, up to 40 non-digits, N btc. -/
def reHoldings4 : Re :=
  seqs [.wb, istr "bitcoin", wsPlus, istr "holdings", lazyUpTo clsNotDigit 40,
    reApprox, reHoldingsNum, wsStar, reBtcWord, .wb]

/-- Holdings pattern 5: total bitcoin holdings were/was N btc. -/
def reHoldings5 : Re :=
  seqs [.wb, istr "total", wsPlus, istr "bitcoin", wsPlus, istr "holdings",
    wsPlus, .alt (istr "were") (istr "was"), wsPlus, reApprox, reHoldingsNum,
    wsStar, reBtcWord, .wb]

/-- The five holdings patterns in source order. -/
def holdingsPatterns : List Re :=
  [reHoldings1, reHoldings2, reHoldings3, reHoldings4, reHoldings5]

/-- Dollar amount capture group 1 for total-cost patterns: digits, dots,
commas. -/
def reEntryNum : Re := .grp 1 (rplus (.cls clsDigitDotComma))

/-- Optional unit word capture group 2: billion or million. -/
def reUnitWord : Re := ropt (.grp 2 (.alt (istr "billion") (istr "million")))

/-- Entry pattern 1: aggregate purchase price / acquisition cost / cost,
then a dollar figure with optional unit. -/
def reEntry1 : Re :=
  seqs [.wb, istr "aggregate", wsPlus,
    .alt (seqs [istr "purchase", wsPlus, istr "price"])
      (.alt (seqs [istr "acquisition", wsPlus, istr "cost"]) (istr "cost")),
    .wb, lazyUpTo clsNotDollar 160, chr '$', wsStar, reEntryNum, wsStar,
    reUnitWord, .wb]

/-- Entry pattern 2: acquired ... aggregate purchase price / cost, then a
dollar figure with optional unit. -/
def reEntry2 : Re :=
  seqs [.wb, istr "acquired", .wb, lazyUpTo clsNotDollar 200, .wb,
    istr "aggregate", wsPlus,
    .alt (seqs [istr "purchase", wsPlus, istr "price"]) (istr "cost"),
    .wb, lazyUpTo clsNotDollar 120, chr '$', wsStar, reEntryNum, wsStar,
    reUnitWord, .wb]

/-- The two total-cost patterns in source order. -/
def entryPatterns : List Re := [reEntry1, reEntry2]

/-- Average-price capture group 1: digits/commas with optional decimals. -/
def reAvgNum : Re :=
  .grp 1 (.seq (rplus (.cls clsDigitComma))
    (ropt (.seq (chr '.') (rplus (.cls clsDigit)))))

/-- Optional word purchase between average and price/cost. -/
def reAvgHead : Re :=
  seqs [.wb, istr "average", ropt (.seq wsPlus (istr "purchase")), wsPlus,
    .alt (istr "price") (istr "cost")]

/-- Average pattern 1: average (purchase) price/cost ... $N per bitcoin/btc. -/
def reAvg1 : Re :=
  seqs [reAvgHead, lazyUpTo clsNotDollar 120, chr '$', wsStar, reAvgNum,
    wsPlus, istr "per", wsPlus, reBitcoinOrBtc, .wb]

/-- Average pattern 2: average (purchase) price/cost per bitcoin/btc ... $N. -/
def reAvg2 : Re :=
  seqs [reAvgHead, wsPlus, istr "per", wsPlus, reBitcoinOrBtc,
    lazyUpTo clsNotDollar 120, chr '$', wsStar, reAvgNum, .wb]

/-- Average pattern 3: average cost basis ... $N per bitcoin/btc. -/
def reAvg3 : Re :=
  seqs [.wb, istr "average", wsPlus, istr "cost", wsPlus, istr "basis", .wb,
    lazyUpTo clsNotDollar 120, chr '$', wsStar, reAvgNum, wsPlus, istr "per",
    wsPlus, reBitcoinOrBtc, .wb]

/-- Average pattern 4: average cost basis per bitcoin/btc ... $N. -/
def reAvg4 : Re :=
  seqs [.wb, istr "average", wsPlus, istr "cost", wsPlus, istr "basis",
    wsPlus, istr "per", wsPlus, reBitcoinOrBtc, lazyUpTo clsNotDollar 120,
    chr '$', wsStar, reAvgNum, .wb]

/-- The four average-price patterns in source order. -/
def avgPatterns : List Re := [reAvg1, reAvg2, reAvg3, reAvg4]

/-- As-of pattern 1: As of MonthName D(,) YYYY, label captured as group 1. -/
def reAsOf1 : Re :=
  seqs [.wb, istr "as of", wsPlus,
    .grp 1 (seqs [rplus (.cls clsAlpha), wsPlus, repRange clsDigit 1 2,
      ropt (chr ','), wsPlus, repRange clsDigit 4 4]), .wb]

/-- As-of pattern 2: As of M/D/YYYY, label captured as group 1. -/
def reAsOf2 : Re :=
  seqs [.wb, istr "as of", wsPlus,
    .grp 1 (seqs [repRange clsDigit 1 2, chr '/', repRange clsDigit 1 2,
      chr '/', repRange clsDigit 4 4]), .wb]

/-- The two as-of patterns in source order. -/
def asOfPatterns : List Re := [reAsOf1, reAsOf2]

/-- Anchored month-name date label: (Letters) ws (D or DD) (,)? ws* (YYYY),
groups 1-3. -/
def reLabelMonthName : Re :=
  seqs [.grp 1 (rplus (.cls clsAlpha)), wsPlus, .grp 2 (repRange clsDigit 1 2),
    ropt (chr ','), wsStar, .grp 3 (repRange clsDigit 4 4)]

/-- Anchored slashed date label: (M)/(D)/(YYYY), groups 1-3. -/
def reLabelSlashed : Re :=
  seqs [.grp 1 (repRange clsDigit 1 2), chr '/', .grp 2 (repRange clsDigit 1 2),
    chr '/', .grp 3 (repRange clsDigit 4 4)]

/-- firstMatch of the source: first pattern in the list that matches at
all, with its leftmost match. -/
def firstMatchRe (text : List Char) : List Re → Option MatchRes
  | [] => none
  | p :: ps =>
    match reFirstMatch p text with
    | some m => some m
    | none => firstMatchRe text ps

/-! ## HTML normalization (normalizeHtmlText)

Each String.prototype.replace call of the source becomes one fuel-bounded
scanning pass; the passes are applied in source order. -/

/-- Does `pre` occur, case-insensitively, at the head of `s`. -/
def startsWithCI : List Char → List Char → Bool
  | [], _ => true
  | _ :: _, [] => false
  | p :: ps, c :: cs => ciCharEq p c ∧ startsWithCI ps cs

/-- Offset just past the first case-insensitive occurrence of `needle`
at or after the head of `s`, if any. -/
def findCIEnd (needle : List Char) : Nat → List Char → Option Nat
  | _, [] => if needle.isEmpty then some 0 else none
  | 0, _ => none
  | fuel + 1, c :: cs =>
    if startsWithCI needle (c :: cs) then some needle.length
    else (findCIEnd needle fuel cs).map (· + 1)

/-- Remove every lazy block from an opening tag to the nearest closing
tag, replacing it by a single space (the script/style stripping passes). -/
def removeDelimitedCI (openT closeT : List Char) : Nat → List Char → List Char
  | 0, cs => cs
  | fuel + 1, cs =>
    match cs with
    | [] => []
    | c :: rest =>
      if startsWithCI openT cs then
        match findCIEnd closeT (cs.drop openT.length).length (cs.drop openT.length) with
        | some endOff =>
          ' ' :: removeDelimitedCI openT closeT fuel (cs.drop (openT.length + endOff))
        | none => cs
      else c :: removeDelimitedCI openT closeT fuel rest

/-- Replace every tag-shaped run (an angle-open, at least one non-close
character, an angle-close) by a space. -/
def stripTags : Nat → List Char → List Char
  | 0, cs => cs
  | fuel + 1, cs =>
    match cs with
    | [] => []
    | c :: rest =>
      if c = '<' then
        match findCIEnd ['>'] rest.length rest with
        | some endOff =>
          if endOff ≥ 2 then ' ' :: stripTags fuel (rest.drop endOff)
          else c :: stripTags fuel rest
        | none => c :: stripTags fuel rest
      else c :: stripTags fuel rest

/-- Replace, case-insensitively, every occurrence of any needle of the
list by the replacement (one alternation-replace pass of the source). -/
def replaceAllCI (needles : List (List Char)) (rep : List Char) :
    Nat → List Char → List Char
  | 0, cs => cs
  | fuel + 1, cs =>
    match cs with
    | [] => []
    | c :: rest =>
      match needles.find? (fun n => !n.isEmpty ∧ startsWithCI n cs) with
      | some n => rep ++ replaceAllCI needles rep fuel (cs.drop n.length)
      | none => c :: replaceAllCI needles rep fuel rest

/-- Collapse every whitespace run to a single space. -/
def collapseSpaces : Nat → List Char → List Char
  | 0, cs => cs
  | fuel + 1, cs =>
    match cs with
    | [] => []
    | c :: rest =>
      if isJsSpace c then ' ' :: collapseSpaces fuel (rest.dropWhile isJsSpace)
      else c :: collapseSpaces fuel rest

/-- normalizeHtmlText: strip script and style blocks, strip tags, decode
the entity set of the source, collapse whitespace, trim. -/
def normalizeHtmlText (input : String) : List Char :=
  let cs0 := input.toList
  let cs1 := removeDelimitedCI ("<script".toList) ("</script>".toList) cs0.length cs0
  let cs2 := removeDelimitedCI ("<style".toList) ("</style>".toList) cs1.length cs1
  let cs3 := stripTags cs2.length cs2
  let cs4 := replaceAllCI [("&nbsp;".toList), ("&#160;".toList), ("&#xA0;".toList)]
    (" ".toList) cs3.length cs3
  let cs5 := replaceAllCI [("&#36;".toList), ("&#x24;".toList), ("&#x0024;".toList)]
    ("$".toList) cs4.length cs4
  let cs6 := replaceAllCI [("&amp;".toList)] ("&".toList) cs5.length cs5
  let cs7 := replaceAllCI [("&lt;".toList)] ("<".toList) cs6.length cs6
  let cs8 := replaceAllCI [("&gt;".toList)] (">".toList) cs7.length cs7
  let cs9 := replaceAllCI [("&quot;".toList)] ("\"".toList) cs8.length cs8
  let cs10 := replaceAllCI [("&#39;".toList)] ("'".toList) cs9.length cs9
  let cs11 := collapseSpaces cs10.length cs10
  jsTrim cs11

/-! ## Filing text-fact extractor (extractMstrBtcStatsFromSecFilingHtml) -/

/-- Sanity floor for an average purchase price in USD. -/
def MIN_AVG_USD : ℚ := 1000

/-- Sanity ceiling for an average purchase price in USD. -/
def MAX_AVG_USD : ℚ := 2000000

/-- Sanity ceiling for a holdings figure in BTC. -/
def MAX_HOLDINGS_BTC : Int := 5000000

/-- JavaScript truthiness of a nullable string: null and the empty string
are falsy. -/
def jsTruthyStr : Option String → Bool
  | some s => ¬s.isEmpty
  | none => false

/-- Result of the per-window reconciliation of average-price and
total-cost candidates. -/
structure ReconcileResult where
  bestAvg : Option ℚ
  bestEntry : Option ℚ
  explicitAvg : Bool
  explicitEntry : Bool
deriving DecidableEq

/-- One inner-loop step of the pair reconciliation.  bestScore starts at
negative infinity, modelled as none.  A pair is considered only when its
relative deviation is at most 0.35; the JS Number.isFinite guard on the
deviation fails exactly when the stated average is zero. -/
def pairStep (holdings : Int) (st : Option ℚ × ReconcileResult) (a e : ℚ × Nat) :
    Option ℚ × ReconcileResult :=
  let derivedAvg : ℚ := e.1 / (holdings : ℚ)
  let relDelta : ℚ := |derivedAvg - a.1| / a.1
  if a.1 = 0 ∨ relDelta > 35 / 100 then st
  else
    let distancePenalty : ℚ := min 2 (|(e.2 : ℚ) - (a.2 : ℚ)| / 800)
    let pairScore : ℚ := 5 - relDelta * 4 - distancePenalty
    let better := match st.1 with | none => true | some b => pairScore > b
    if better then (some pairScore, ⟨some a.1, some e.1, true, true⟩) else st

/-- The double loop over (average, entry) candidate pairs. -/
def reconcilePairs (holdings : Int) (avgCandidates entryCandidates : List (ℚ × Nat)) :
    ReconcileResult :=
  (avgCandidates.foldl
    (fun st a => entryCandidates.foldl (fun st' e => pairStep holdings st' a e) st)
    (none, ⟨none, none, false, false⟩)).2

/-- The reconciliation-consistency contract: an accepted explicit pair
deviates from its derived average by at most 35 percent. -/
def reconcileOk (holdings : Int) (r : ReconcileResult) : Prop :=
  r.explicitAvg = true → r.explicitEntry = true →
  ∃ a e, r.bestAvg = some a ∧ r.bestEntry = some e ∧
    |e / (holdings : ℚ) - a| / a ≤ 35 / 100

/-- Fallback b of the reconciliation: no pair accepted but an explicit
average exists, so the total is derived from the first average candidate. -/
def reconcileFallbackAvg (holdings : Int) (avgCandidates : List (ℚ × Nat))
    (r0 : ReconcileResult) : ReconcileResult :=
  match r0.bestAvg, avgCandidates with
  | none, a0 :: _ => ⟨some a0.1, some (a0.1 * (holdings : ℚ)), true, false⟩
  | _, _ => r0

/-- Fallback c of the reconciliation: still no average, but an explicit
total exists, so the average is derived from the first total candidate. -/
def reconcileFallbackEntry (holdings : Int) (entryCandidates : List (ℚ × Nat))
    (r1 : ReconcileResult) : ReconcileResult :=
  match r1.bestAvg, entryCandidates with
  | none, e0 :: _ => ⟨some (e0.1 / (holdings : ℚ)), some e0.1, false, true⟩
  | _, _ => r1

/-- The reconciliation priority order of the source: paired candidates
first, then a lone explicit average (total derived), then a lone explicit
total (average derived). -/
def reconcileWindow (holdings : Int) (avgCandidates entryCandidates : List (ℚ × Nat)) :
    ReconcileResult :=
  reconcileFallbackEntry holdings entryCandidates
    (reconcileFallbackAvg holdings avgCandidates
      (if avgCandidates.length > 0 ∧ entryCandidates.length > 0 then
        reconcilePairs holdings avgCandidates entryCandidates
      else ⟨none, none, false, false⟩))

/-- A surviving candidate snapshot of the extractor loop. -/
structure Candidate where
  asOfDateLabel : Option String
  totalHoldingsBtc : Int
  totalEntryValueUsd : ℚ
  avgPurchasePriceUsd : ℚ
  score : Nat
deriving DecidableEq

/-- The extractor's output tuple. -/
structure ExtractedStats where
  asOfDateLabel : Option String
  totalHoldingsBtc : Int
  totalEntryValueUsd : ℚ
  avgPurchasePriceUsd : ℚ
deriving DecidableEq

/-- The bounded text window around a holdings match: 7500 characters
before its position, 25000 after. -/
def windowTextOf (text : List Char) (index : Nat) : List Char :=
  let wstart := index - 7500
  let wend := min text.length (index + 25000)
  (text.drop wstart).take (wend - wstart)

/-- The as-of label found in a window: group 1 of the first as-of match. -/
def asOfLabelOf (windowText : List Char) : Option String :=
  match firstMatchRe windowText asOfPatterns with
  | some m => m.group windowText 1
  | none => none

/-- The average-price candidates of a window: every average-pattern match
whose group parses, restricted to the plausibility bounds, paired with
its match position. -/
def avgCandidatesOf (windowText : List Char) : List (ℚ × Nat) :=
  let avgMatches := avgPatterns.flatMap (fun p => getAllMatches windowText p)
  (avgMatches.filterMap (fun m =>
      (parseNumberLike (m.groupD windowText 1)).map (fun v => (v, m.index)))).filter
    (fun item => MIN_AVG_USD ≤ item.1 ∧ item.1 ≤ MAX_AVG_USD)

/-- The total-cost candidates of a window: every entry-pattern match whose
dollar figure (scaled by the optional unit word) parses, restricted to the
per-holdings plausibility bounds, paired with its match position. -/
def entryCandidatesOf (holdings : Int) (windowText : List Char) : List (ℚ × Nat) :=
  let entryMatches := entryPatterns.flatMap (fun p => getAllMatches windowText p)
  (entryMatches.filterMap (fun m =>
      (parseUsdApprox (m.groupD windowText 1) (m.group windowText 2)).map
        (fun v => (v, m.index)))).filter
    (fun item => (holdings : ℚ) * MIN_AVG_USD ≤ item.1 ∧
      item.1 ≤ (holdings : ℚ) * MAX_AVG_USD)

/-- The tail of one candidate-loop iteration after reconciliation: the
plausibility bound on the reconciled average, then the scored candidate
record (+3 explicit average, +2 explicit total, +1 truthy as-of label). -/
def mkWindowCandidate (holdings : Int) (asOfDateLabel : Option String)
    (r : ReconcileResult) : Option Candidate :=
  match r.bestAvg, r.bestEntry with
  | some bestAvg, some bestEntry =>
    if bestAvg < MIN_AVG_USD ∨ bestAvg > MAX_AVG_USD then none
    else
      some ⟨asOfDateLabel, holdings, bestEntry, bestAvg,
        (if r.explicitAvg then 3 else 0) + (if r.explicitEntry then 2 else 0) +
          (if jsTruthyStr asOfDateLabel then 1 else 0)⟩
  | _, _ => none

/-- One iteration of the extractor's candidate loop: windowing around a
holdings match, as-of search, candidate collection, reconciliation,
plausibility bounds and scoring. -/
def processHoldingsMatch (text : List Char) (holdingsMatch : MatchRes) :
    Option Candidate :=
  match parseIntLike (holdingsMatch.groupD text 1) with
  | none => none
  | some holdings =>
    if holdings ≤ 0 ∨ holdings > MAX_HOLDINGS_BTC then none
    else
      mkWindowCandidate holdings (asOfLabelOf (windowTextOf text holdingsMatch.index))
        (reconcileWindow holdings
          (avgCandidatesOf (windowTextOf text holdingsMatch.index))
          (entryCandidatesOf holdings (windowTextOf text holdingsMatch.index)))

/-- The extractor's full candidate list, in holdings-match encounter
order (a loop iteration that hits a continue contributes nothing). -/
def extractCandidates (html : String) : List Candidate :=
  let text := normalizeHtmlText html
  let holdingsMatches := holdingsPatterns.flatMap (fun p => getAllMatches text p)
  holdingsMatches.filterMap (processHoldingsMatch text)

/-- Candidate ordering used by candidates.sort: descending score, stable. -/
def scoreKeep (a b : Candidate) : Bool := b.score ≤ a.score

/-- extractMstrBtcStatsFromSecFilingHtml: null when no candidate survives
(in particular when no holdings phrase matches at all), else the best
scoring candidate, ties broken by encounter order via the stable sort. -/
def extractMstrBtcStatsFromSecFilingHtml (html : String) : Option ExtractedStats :=
  match stableSort scoreKeep (extractCandidates html) with
  | [] => none
  | best :: _ =>
    some ⟨best.asOfDateLabel, best.totalHoldingsBtc, best.totalEntryValueUsd,
      best.avgPurchasePriceUsd⟩

/-! ## Date handling -/

/-- JavaScript Number(string) on the full string: empty or blank is 0, a
signed decimal literal is its value, anything else is NaN (none).  The
pipeline only feeds it digit runs split out of ISO dates. -/
def jsDecFull (s : List Char) : Option ℚ :=
  let (ds, rest) := spanDigits s
  match rest with
  | '.' :: rest' =>
    let (fs, rest'') := spanDigits rest'
    if rest''.isEmpty ∧ ¬(ds.isEmpty ∧ fs.isEmpty) then
      some ((digitsToNat ds : ℚ) + (digitsToNat fs : ℚ) / ((10 : ℚ) ^ fs.length))
    else none
  | [] => if ds.isEmpty then none else some (digitsToNat ds : ℚ)
  | _ => none

/-- Number(string): trim, empty to 0, else a full decimal literal. -/
def jsStringToNum (s : List Char) : Option ℚ :=
  let t := jsTrim s
  if t.isEmpty then some 0
  else
    match t with
    | '-' :: rest => (jsDecFull rest).map (fun q => -q)
    | '+' :: rest => jsDecFull rest
    | _ => jsDecFull t

/-- Truncation toward zero, as ECMAScript ToIntegerOrInfinity. -/
def ratTrunc (q : ℚ) : Int := if 0 ≤ q then Int.floor q else Int.ceil q

/-- Date.UTC(year, monthIndex, day) in epoch milliseconds: month rollover
by floored division, then days-from-civil of the proleptic Gregorian
calendar (day overflow rolls forward naturally). -/
def dateUtcMs (year monthIndex day : Int) : Int :=
  let ya := year + Int.fdiv monthIndex 12
  let mn := Int.emod monthIndex 12
  let y' := if mn + 1 ≤ 2 then ya - 1 else ya
  let era := Int.fdiv y' 400
  let yoe := y' - era * 400
  let mp := mn + 1 + (if mn + 1 > 2 then (-3 : Int) else 9)
  let doy := Int.fdiv (153 * mp + 2) 5 + day - 1
  let doe := yoe * 365 + Int.fdiv yoe 4 - Int.fdiv yoe 100 + doy
  (era * 146097 + doe - 719468) * 86400000

/-- The month-name table of the source, keys already lower-case. -/
def monthNameTable : List (List Char × Nat) :=
  [(("jan").toList, 0), (("january").toList, 0), (("feb").toList, 1),
   (("february").toList, 1), (("mar").toList, 2), (("march").toList, 2),
   (("apr").toList, 3), (("april").toList, 3), (("may").toList, 4),
   (("jun").toList, 5), (("june").toList, 5), (("jul").toList, 6),
   (("july").toList, 6), (("aug").toList, 7), (("august").toList, 7),
   (("sep").toList, 8), (("sept").toList, 8), (("september").toList, 8),
   (("oct").toList, 9), (("october").toList, 9), (("nov").toList, 10),
   (("november").toList, 10), (("dec").toList, 11), (("december").toList, 11)]

/-- MONTH_NAME_TO_INDEX lookup on a lower-cased name. -/
def monthNameToIndex (s : List Char) : Option Nat :=
  (monthNameTable.find? (fun e => e.1 = s)).map (·.2)

/-- parseAsOfDateLabelToUtcMs: trim, try the anchored month-name format
(falling through when the month name is unknown), then the anchored
slashed format, else null. -/
def parseAsOfDateLabelToUtcMs (label : String) : Option Int :=
  let trimmed := jsTrim label.toList
  let slashed : Option Int :=
    match reMatchFull reLabelSlashed trimmed with
    | some m =>
      match jsStringToNum (m.groupD trimmed 1).toList,
          jsStringToNum (m.groupD trimmed 2).toList,
          jsStringToNum (m.groupD trimmed 3).toList with
      | some month, some day, some year =>
        some (dateUtcMs (ratTrunc year) (ratTrunc month - 1) (ratTrunc day))
      | _, _, _ => none
    | none => none
  match reMatchFull reLabelMonthName trimmed with
  | some m =>
    match monthNameToIndex (jsToLower (m.groupD trimmed 1).toList),
        jsStringToNum (m.groupD trimmed 2).toList,
        jsStringToNum (m.groupD trimmed 3).toList with
    | some monthIndex, some day, some year =>
      some (dateUtcMs (ratTrunc year) (monthIndex : Int) (ratTrunc day))
    | _, _, _ => slashed
  | none => slashed

/-- Split a character list on a separator, keeping empty fields, as
String.prototype.split. -/
def splitOn (sep : Char) : List Char → List (List Char)
  | [] => [[]]
  | c :: cs =>
    if c = sep then [] :: splitOn sep cs
    else
      match splitOn sep cs with
      | [] => [[c]]
      | f :: fs => (c :: f) :: fs

/-- toUtcMsFromIsoDate: split on dashes, Number each of the first three
fields, throw (none) unless all three are finite, else Date.UTC of
(year, month - 1, day). -/
def toUtcMsFromIsoDate (isoDate : String) : Option Int :=
  let parts := splitOn '-' isoDate.toList
  match (parts.get? 0).bind jsStringToNum, (parts.get? 1).bind jsStringToNum,
      (parts.get? 2).bind jsStringToNum with
  | some year, some month, some day =>
    some (dateUtcMs (ratTrunc year) (ratTrunc month - 1) (ratTrunc day))
  | _, _, _ => none

/-! ## Treasury snapshots and the aggregator -/

/-- One reconciled treasury snapshot. -/
structure MstrTreasurySnapshot where
  name : String
  symbol : String
  asOfDateLabel : Option String
  filingDateIso : Option String
  sourceUrl : String
  totalHoldingsBtc : Int
  totalEntryValueUsd : ℚ
  avgPurchasePriceUsd : ℚ
deriving DecidableEq

/-- A snapshot with its resolved UTC timestamp. -/
structure MstrTreasurySnapshotPoint extends MstrTreasurySnapshot where
  xUtcMs : Int
deriving DecidableEq

/-- getTreasurySnapshotUtcMs: as-of label (if truthy and parseable) wins,
else the ISO filing date (if truthy and parseable), else null. -/
def getTreasurySnapshotUtcMs (snapshot : MstrTreasurySnapshot) : Option Int :=
  let fromFiling : Option Int :=
    if jsTruthyStr snapshot.filingDateIso then
      toUtcMsFromIsoDate (snapshot.filingDateIso.getD "")
    else none
  if jsTruthyStr snapshot.asOfDateLabel then
    match parseAsOfDateLabelToUtcMs (snapshot.asOfDateLabel.getD "") with
    | some parsed => some parsed
    | none => fromFiling
  else fromFiling

/-- Attach resolved timestamps, silently dropping unresolvable snapshots
(lines building `points` in the aggregator). -/
def pointsOfSnapshots (snapshots : List (Option MstrTreasurySnapshot)) :
    List MstrTreasurySnapshotPoint :=
  (snapshots.filterMap id).filterMap (fun s =>
    (getTreasurySnapshotUtcMs s).map (fun x => ⟨s, x⟩))

/-- One Map.set step of the by-date deduplication: first writer keeps its
key slot (insertion order), a later same-day snapshot replaces the stored
one only when it reports strictly larger holdings. -/
def jsMapSetByDate (m : List (Int × MstrTreasurySnapshotPoint))
    (point : MstrTreasurySnapshotPoint) : List (Int × MstrTreasurySnapshotPoint) :=
  match m.find? (fun e => e.1 = point.xUtcMs) with
  | some existing =>
    if point.totalHoldingsBtc > existing.2.totalHoldingsBtc then
      m.map (fun e => if e.1 = point.xUtcMs then (e.1, point) else e)
    else m
  | none => m ++ [(point.xUtcMs, point)]

/-- Deduplicate same-timestamp snapshots via the insertion-ordered map,
then sort ascending by resolved timestamp. -/
def dedupSortByDate (points : List MstrTreasurySnapshotPoint) :
    List MstrTreasurySnapshotPoint :=
  let byDate := points.foldl jsMapSetByDate []
  stableSort (fun a b => a.xUtcMs ≤ b.xUtcMs) (byDate.map (·.2))

/-- The generic could-not-extract error message of the aggregator. -/
def noFactErrorMessage : String :=
  "Could not extract MicroStrategy’s Bitcoin holdings / average purchase price from recent SEC filings."

/-- Per-filing outcome of the concurrent extraction phase: a fetch error
(caught, recorded into lastError), a fetched document with no extractable
fact (ok none), or a snapshot. -/
abbrev FilingOutcome := Except String (Option MstrTreasurySnapshot)

/-- The mutable lastError after the extraction phase: last error in
completion order, modelled by list order. -/
def lastErrorOf (outcomes : List FilingOutcome) : Option String :=
  outcomes.foldl (fun acc o => match o with | .error e => some e | .ok _ => acc) none

/-- The per-slot snapshot results (a caught error yields null). -/
def snapshotsOfOutcomes (outcomes : List FilingOutcome) :
    List (Option MstrTreasurySnapshot) :=
  outcomes.map (fun o => match o with | .ok s => s | .error _ => none)

/-- The part of a filing outcome that feeds lastError. -/
def errPart : FilingOutcome → Option String
  | .error e => some e
  | .ok _ => none

/-- The aggregator tail after filing selection: build dated points, throw
when none are usable (the last fetch error if one occurred, else the
generic message), else deduplicate and sort. -/
def runExtractionPhase (outcomes : List FilingOutcome) :
    Except String (List MstrTreasurySnapshotPoint) :=
  if (pointsOfSnapshots (snapshotsOfOutcomes outcomes)).isEmpty then
    .error ((lastErrorOf outcomes).getD noFactErrorMessage)
  else .ok (dedupSortByDate (pointsOfSnapshots (snapshotsOfOutcomes outcomes)))

/-! ## Filing discovery: supplementary pages and candidate selection -/

/-- A reference to one filing from the submissions index. -/
structure FilingRef where
  accessionNumber : String
  filingDateIso : Option String
  primaryDocument : Option String
  form : String
deriving DecidableEq

/-- A supplementary history-file entry from the submissions index. -/
structure SecSubmissionFile where
  name : Option String
  filingFrom : Option String
  filingTo : Option String
deriving DecidableEq

/-- The submissions-index response: the inline recent list (as built
filing references) plus the supplementary history files. -/
structure SecSubmissionsResponse where
  recent : List FilingRef
  files : List SecSubmissionFile
deriving DecidableEq

/-- The desired window start. -/
def startIsoDate : String := "2020-08-01"

/-- Cap on supplementary history pages fetched. -/
def maxSupplementalFilesToFetch : Nat := 80

/-- The date a supplementary file contributes to the coverage fold:
its filingFrom when present (nullish coalescing), else its filingTo. -/
def coverCand (f : String × Option String × Option String) : Option String :=
  match f.2.1 with | some v => some v | none => f.2.2

/-- One step of the earliest-covered-date fold: a falsy candidate (null
or empty string, the source's `if (candidateEarliest)` truthiness guard)
leaves the accumulator unchanged; a truthy one replaces it when smaller. -/
def foldEarliest (e c : Option String) : Option String :=
  if jsTruthyStr c then
    match c, e with
    | none, e' => e'
    | some c', none => some c'
    | some c', some e' => if strLt c' e' then some c' else some e'
  else e

/-- Earliest covered date accumulated over a range list. -/
def earliestCoveredOf (ranges : List (String × Option String × Option String)) :
    Option String :=
  ranges.foldl (fun e f => foldEarliest e (coverCand f)) none

/-- Does an accumulated earliest covered date reach the window start. -/
def coveredBy (e : Option String) : Bool :=
  match e with
  | some d => strLe d startIsoDate
  | none => false

/-- Has the accumulated coverage of a range list reached the window start. -/
def coverageReached (ranges : List (String × Option String × Option String)) : Bool :=
  coveredBy (earliestCoveredOf ranges)

/-- The supplementary-selection loop: push the page, fold its range into
the earliest covered date, stop once coverage reaches the window start or
the page cap is hit. -/
def suppLoop : List (String × Option String × Option String) → List String →
    Option String → List String
  | [], acc, _ => acc
  | f :: rest, acc, earliest =>
    let acc' := acc ++ [f.1]
    let earliest' := foldEarliest earliest (coverCand f)
    if coveredBy earliest' then acc'
    else if acc'.length ≥ maxSupplementalFilesToFetch then acc'
    else suppLoop rest acc' earliest'

/-- The candidate supplementary pages: files with a name, restricted to
ranges not ending before the window start, sorted descending by range
end. -/
def supplementalFileRanges (resp : SecSubmissionsResponse) :
    List (String × Option String × Option String) :=
  let ranges := (resp.files.filterMap (fun f =>
      f.name.map (fun n => (n, f.filingFrom, f.filingTo)))).filter
    (fun f => match f.2.2 with | none => true | some t => t.isEmpty ∨ strLe startIsoDate t)
  stableSort (fun a b => strLe (b.2.2.getD "") (a.2.2.getD "")) ranges

/-- Names of the supplementary pages the aggregator will fetch.  Only the
files portion of the response is consulted. -/
def selectSupplementalFiles (resp : SecSubmissionsResponse) : List String :=
  suppLoop (supplementalFileRanges resp) [] none

/-- Earliest (lexicographically least) truthy filing date appearing in a
filing-reference list; used to phrase coverage of the inline recent list. -/
def earliestFilingDate (refs : List FilingRef) : Option String :=
  (refs.filterMap (fun r => if jsTruthyStr r.filingDateIso then r.filingDateIso else none)).foldl
    (fun acc d => match acc with
      | none => some d
      | some e => if strLt d e then some d else some e) none

/-- Is the first char list an initial segment of the second. -/
def charsPrefixEq : List Char → List Char → Bool
  | [], _ => true
  | _ :: _, [] => false
  | c :: cs, d :: ds => c == d && charsPrefixEq cs ds

/-- String.startsWith over the char lists. -/
def strStartsWith (s p : String) : Bool := charsPrefixEq p.toList s.toList

/-- isEightKForm. -/
def isEightKForm (form : String) : Bool := strStartsWith form ("8-K")

/-- isTreasuryDisclosureForm: 8-K, 10-Q or 10-K prefixed form types. -/
def isTreasuryDisclosureForm (form : String) : Bool :=
  isEightKForm form || strStartsWith form ("10-Q") || strStartsWith form ("10-K")

/-- getMonthKeyFromIsoDate: the YYYY-MM prefix. -/
def getMonthKeyFromIsoDate (isoDate : String) : String :=
  String.mk (isoDate.toList.take 7)

/-- Cap on selected candidate filings. -/
def maxSelectedFilings : Nat := 200

/-- Down-sampling cap outside the recent window. -/
def maxSampledFilingsPerMonth : Nat := 2

/-- State of the candidate-selection loop. -/
structure SelState where
  selected : List FilingRef
  monthCounts : String → Nat
  seen : List String

/-- The continue-filter of the selection loop: falsy accession number or
form, or a form that is not a treasury-disclosure type. -/
def skipFiling (f : FilingRef) : Bool :=
  f.accessionNumber.isEmpty || f.form.isEmpty || !isTreasuryDisclosureForm f.form

/-- The break condition: a truthy filing date before the window start. -/
def isPreStart (f : FilingRef) : Bool :=
  match f.filingDateIso with
  | some d => !d.isEmpty && strLt d startIsoDate
  | none => false

/-- Membership of a filing date in the recent window. -/
def isRecentFiling (recentCutoffIsoDate : String) (f : FilingRef) : Bool :=
  match f.filingDateIso with
  | some d => !d.isEmpty && strLe recentCutoffIsoDate d
  | none => false

/-- The calendar-month key of a filing with a truthy date. -/
def monthKeyOf (f : FilingRef) : Option String :=
  match f.filingDateIso with
  | some d => if d.isEmpty then none else some (getMonthKeyFromIsoDate d)
  | none => none

/-- The candidate-selection loop over the date-descending filing list:
skip non-treasury forms and repeated accession numbers, stop at the first
filing before the window start or once the selection cap is reached, keep
recent-window filings unconditionally, down-sample older dated filings to
two per calendar month, and silently skip older undated filings. -/
def selectLoop (recentCutoffIsoDate : String) :
    List FilingRef → SelState → SelState
  | [], st => st
  | filing :: rest, st =>
    if skipFiling filing then selectLoop recentCutoffIsoDate rest st
    else if filing.accessionNumber ∈ st.seen then
      selectLoop recentCutoffIsoDate rest st
    else if isPreStart filing then st
    else if st.selected.length ≥ maxSelectedFilings then st
    else if isRecentFiling recentCutoffIsoDate filing then
      selectLoop recentCutoffIsoDate rest
        ⟨st.selected ++ [filing], st.monthCounts, filing.accessionNumber :: st.seen⟩
    else
      match monthKeyOf filing with
      | none => selectLoop recentCutoffIsoDate rest st
      | some monthKey =>
        if st.monthCounts monthKey ≥ maxSampledFilingsPerMonth then
          selectLoop recentCutoffIsoDate rest st
        else
          selectLoop recentCutoffIsoDate rest
            ⟨st.selected ++ [filing],
              fun k => if k = monthKey then st.monthCounts monthKey + 1
                else st.monthCounts k,
              filing.accessionNumber :: st.seen⟩

/-- The descending-date sort key of a filing, null date as empty. -/
def filingDateKey (f : FilingRef) : String := f.filingDateIso.getD ""

/-- Is a selected filing an old-window filing of calendar month m. -/
def isOldInMonth (recentCutoffIsoDate m : String) (f : FilingRef) : Bool :=
  !isRecentFiling recentCutoffIsoDate f && monthKeyOf f = some m

/-- Number of old-window filings of month m in a selection. -/
def countOldMonth (recentCutoffIsoDate m : String) (sel : List FilingRef) : Nat :=
  (sel.filter (isOldInMonth recentCutoffIsoDate m)).length

/-- The selection-loop invariant: treasury forms only, bounded count,
window-start-respecting truthy dates, month counters tracking the
old-window selection, and the per-month cap. -/
def selInv (recentCutoffIsoDate : String) (st : SelState) : Prop :=
  (∀ f ∈ st.selected, isTreasuryDisclosureForm f.form = true) ∧
  st.selected.length ≤ maxSelectedFilings ∧
  (∀ f ∈ st.selected, ∃ d, f.filingDateIso = some d ∧ d.isEmpty = false ∧
    strLe startIsoDate d = true) ∧
  (∀ m, st.monthCounts m = countOldMonth recentCutoffIsoDate m st.selected) ∧
  (∀ m, countOldMonth recentCutoffIsoDate m st.selected ≤ maxSampledFilingsPerMonth)

/-- The selected candidate filings, in selection order. -/
def selectFilings (recentCutoffIsoDate : String) (allFilings : List FilingRef) :
    List FilingRef :=
  (selectLoop recentCutoffIsoDate allFilings ⟨[], fun _ => 0, []⟩).selected

/-! ## Step-series construction (buildStepPointsFromTreasuryHistory) -/

/-- The emission loop: a snapshot inside the range contributes the pair
of points closing the previous plateau and opening its own; a snapshot
past the range end stops the loop; the final point closes the running
plateau at the range end. -/
def stepLoop (startX endX : Int) :
    List MstrTreasurySnapshotPoint → MstrTreasurySnapshotPoint →
    List (Int × ℚ) → List (Int × ℚ)
  | [], current, points => points ++ [(endX, current.avgPurchasePriceUsd)]
  | next :: rest, current, points =>
    if next.xUtcMs < startX then stepLoop startX endX rest current points
    else if endX < next.xUtcMs then points ++ [(endX, current.avgPurchasePriceUsd)]
    else
      stepLoop startX endX rest next
        (points ++ [(next.xUtcMs, current.avgPurchasePriceUsd),
          (next.xUtcMs, next.avgPurchasePriceUsd)])

/-- buildStepPointsFromTreasuryHistory.  The source's startIndex scan
leaves startIndex at the last index of the leading run of snapshots at or
before the range start, or at 0 when that run is empty; the Number.isFinite
guards are vacuous over integer timestamps. -/
def buildStepPointsFromTreasuryHistory (historyAsc : List MstrTreasurySnapshotPoint)
    (startXUtcMs endXUtcMs : Int) : List (Int × ℚ) :=
  match historyAsc with
  | [] => []
  | h0 :: _ =>
    if endXUtcMs ≤ startXUtcMs then []
    else
      let k := (historyAsc.takeWhile (fun s => s.xUtcMs ≤ startXUtcMs)).length
      let startIndex := k - 1
      let current := historyAsc.getD startIndex h0
      let initialX := max startXUtcMs current.xUtcMs
      if endXUtcMs < initialX then []
      else
        stepLoop startXUtcMs endXUtcMs (historyAsc.drop (startIndex + 1)) current
          [(initialX, current.avgPurchasePriceUsd)]

/-- Value of an emitted step series at a timestamp: the value of the last
emitted point at or before it (the series is right-continuous at each
snapshot timestamp because the closing point precedes the opening one). -/
def stepValueAt (points : List (Int × ℚ)) (t : Int) : Option ℚ :=
  ((points.filter (fun p => p.1 ≤ t)).getLast?).map (·.2)

/-- The latest snapshot of an ascending history at or before a timestamp. -/
def latestSnapshotAt (historyAsc : List MstrTreasurySnapshotPoint) (t : Int) :
    Option MstrTreasurySnapshotPoint :=
  (historyAsc.filter (fun s => s.xUtcMs ≤ t)).getLast?

/-- Invariant of the by-date map fold: distinct keys, every entry is a
processed point stored under its own timestamp, and every processed point
is dominated by the entry at its timestamp. -/
def byDateInv (processed : List MstrTreasurySnapshotPoint)
    (m : List (Int × MstrTreasurySnapshotPoint)) : Prop :=
  m.Pairwise (fun a b => a.1 ≠ b.1) ∧
  (∀ e ∈ m, e.2.xUtcMs = e.1 ∧ e.2 ∈ processed) ∧
  (∀ p ∈ processed, ∃ e ∈ m, e.1 = p.xUtcMs ∧
    p.totalHoldingsBtc ≤ e.2.totalHoldingsBtc)

/-! ## Lemmas about the stable sort -/

theorem mem_stableInsert {keep : α → α → Bool} {x a : α} {l : List α} :
    a ∈ stableInsert keep x l ↔ a = x ∨ a ∈ l := by
  induction l with
  | nil => simp [stableInsert]
  | cons y ys ih =>
    simp only [stableInsert]
    split
    · simp [List.mem_cons]
    · simp only [List.mem_cons, ih]
      tauto

theorem mem_stableSort {keep : α → α → Bool} {a : α} {l : List α} :
    a ∈ stableSort keep l ↔ a ∈ l := by
  induction l with
  | nil => simp [stableSort]
  | cons x xs ih => simp [stableSort, mem_stableInsert, ih]

theorem stableInsert_perm (keep : α → α → Bool) (x : α) (l : List α) :
    (stableInsert keep x l).Perm (x :: l) := by
  induction l with
  | nil => simp [stableInsert]
  | cons y ys ih =>
    simp only [stableInsert]
    split
    · exact List.Perm.refl _
    · exact (ih.cons y).trans (List.Perm.swap x y ys)

theorem stableSort_perm (keep : α → α → Bool) (l : List α) :
    (stableSort keep l).Perm l := by
  induction l with
  | nil => simp [stableSort]
  | cons x xs ih =>
    exact (stableInsert_perm keep x (stableSort keep xs)).trans (ih.cons x)

theorem pairwise_stableInsert {keep : α → α → Bool}
    (htot : ∀ a b, keep a b = true ∨ keep b a = true)
    (htrans : ∀ a b c, keep a b = true → keep b c = true → keep a c = true)
    {x : α} {l : List α} (hl : l.Pairwise (fun a b => keep a b = true)) :
    (stableInsert keep x l).Pairwise (fun a b => keep a b = true) := by
  induction l with
  | nil => simp [stableInsert]
  | cons y ys ih =>
    rcases List.pairwise_cons.mp hl with ⟨hy, hys⟩
    simp only [stableInsert]
    split
    · rename_i hxy
      refine List.pairwise_cons.mpr ⟨?_, hl⟩
      intro b hb
      rcases List.mem_cons.mp hb with rfl | hb
      · exact hxy
      · exact htrans x y b hxy (hy b hb)
    · rename_i hxy
      have hyx : keep y x = true := by
        rcases htot x y with h | h
        · exact absurd h hxy
        · exact h
      refine List.pairwise_cons.mpr ⟨?_, ih hys⟩
      intro b hb
      rcases mem_stableInsert.mp hb with rfl | hb
      · exact hyx
      · exact hy b hb

theorem pairwise_stableSort {keep : α → α → Bool}
    (htot : ∀ a b, keep a b = true ∨ keep b a = true)
    (htrans : ∀ a b c, keep a b = true → keep b c = true → keep a c = true)
    (l : List α) :
    (stableSort keep l).Pairwise (fun a b => keep a b = true) := by
  induction l with
  | nil => simp [stableSort]
  | cons x xs ih => exact pairwise_stableInsert htot htrans ih

theorem head?_stableInsert {keep : α → α → Bool} (x : α) (l : List α) :
    (stableInsert keep x l).head? =
      some (match l.head? with
        | none => x
        | some y => if keep x y then x else y) := by
  cases l with
  | nil => simp [stableInsert]
  | cons y ys =>
    simp only [stableInsert]
    split <;> rename_i h <;> simp [List.head?_cons, h]

theorem head?_stableSort {keep : α → α → Bool} (l : List α) :
    (stableSort keep l).head? = firstBest keep l := by
  induction l with
  | nil => rfl
  | cons x xs ih =>
    simp only [stableSort, head?_stableInsert, firstBest]
    rw [← ih]
    cases h : (stableSort keep xs).head? with
    | none => rfl
    | some m =>
      show some (if keep x m = true then x else m) =
        if keep x m = true then some x else some m
      split <;> rfl

theorem firstBest_eq_none_iff {keep : α → α → Bool} {l : List α} :
    firstBest keep l = none ↔ l = [] := by
  cases l with
  | nil => simp [firstBest]
  | cons x xs =>
    simp only [firstBest]
    constructor
    · intro h
      exfalso
      cases hfb : firstBest keep xs with
      | none => rw [hfb] at h; simp at h
      | some m =>
        rw [hfb] at h
        by_cases hk : keep x m = true <;> simp [hk] at h
    · intro h
      exact absurd h (List.cons_ne_nil x xs)

theorem find?_congr_on {l : List α} {p q : α → Bool}
    (h : ∀ a ∈ l, p a = q a) : l.find? p = l.find? q := by
  induction l with
  | nil => rfl
  | cons x xs ih =>
    have hx := h x (List.mem_cons_self x xs)
    simp only [List.find?]
    rw [← hx]
    cases hpx : p x with
    | true => rfl
    | false => exact ih (fun a ha => h a (List.mem_cons_of_mem x ha))

theorem firstBest_score_max (f : α → Nat) (l : List α) (m : α)
    (h : firstBest (fun a b => f b ≤ f a) l = some m) :
    m ∈ l ∧ ∀ d ∈ l, f d ≤ f m := by
  induction l generalizing m with
  | nil => simp [firstBest] at h
  | cons x xs ih =>
    simp only [firstBest] at h
    cases hfb : firstBest (fun a b => f b ≤ f a) xs with
    | none =>
      rw [hfb] at h
      have hx : xs = [] := firstBest_eq_none_iff.mp hfb
      subst hx
      simp at h
      subst h
      simp
    | some m' =>
      rw [hfb] at h
      rcases ih m' hfb with ⟨hmem, hmax⟩
      by_cases hk : f m' ≤ f x
      · simp [hk] at h
        subst h
        refine ⟨List.mem_cons_self _ _, ?_⟩
        intro d hd
        rcases List.mem_cons.mp hd with rfl | hd
        · exact le_refl _
        · exact le_trans (hmax d hd) hk
      · simp [hk] at h
        subst h
        refine ⟨List.mem_cons_of_mem x hmem, ?_⟩
        intro d hd
        rcases List.mem_cons.mp hd with rfl | hd
        · exact le_of_not_le hk
        · exact hmax d hd

theorem firstBest_eq_find?_max (f : α → Nat) (l : List α) :
    firstBest (fun a b => f b ≤ f a) l =
      l.find? (fun c => l.all (fun d => f d ≤ f c)) := by
  induction l with
  | nil => rfl
  | cons x xs ih =>
    simp only [firstBest]
    cases hfb : firstBest (fun a b => f b ≤ f a) xs with
    | none =>
      have hx : xs = [] := firstBest_eq_none_iff.mp hfb
      subst hx
      simp [List.find?, List.all]
    | some m =>
      rcases firstBest_score_max f xs m hfb with ⟨hmem, hmax⟩
      by_cases hk : f m ≤ f x
      · have hpx : ((x :: xs).all (fun d => f d ≤ f x)) = true := by
          simp only [List.all_eq_true, decide_eq_true_eq]
          intro d hd
          rcases List.mem_cons.mp hd with rfl | hd
          · exact le_refl _
          · exact le_trans (hmax d hd) hk
        show (if decide (f m ≤ f x) = true then some x else some m) =
          List.find? (fun c => (x :: xs).all fun d => decide (f d ≤ f c)) (x :: xs)
        rw [if_pos (decide_eq_true hk)]
        simp only [List.find?, hpx]
      · have hpx : ((x :: xs).all (fun d => f d ≤ f x)) = false := by
          simp only [List.all_eq_false]
          exact ⟨m, List.mem_cons_of_mem x hmem, by simpa using hk⟩
        show (if decide (f m ≤ f x) = true then some x else some m) =
          List.find? (fun c => (x :: xs).all fun d => decide (f d ≤ f c)) (x :: xs)
        rw [if_neg (fun h => hk (of_decide_eq_true h))]
        have hstep :
            List.find? (fun c => (x :: xs).all fun d => decide (f d ≤ f c)) (x :: xs)
              = List.find? (fun c => (x :: xs).all fun d => decide (f d ≤ f c)) xs := by
          simp only [List.find?, hpx]
        have hagree : xs.find? (fun c => (x :: xs).all (fun d => f d ≤ f c)) =
            xs.find? (fun c => xs.all (fun d => f d ≤ f c)) := by
          apply find?_congr_on
          intro c hc
          simp only [List.all_cons, Bool.and_eq_true, decide_eq_true_eq]
          cases hall : xs.all (fun d => f d ≤ f c) with
          | false => simp
          | true =>
            have hmc : f m ≤ f c := by
              have := List.all_eq_true.mp hall m hmem
              simpa using this
            have hxc : f x ≤ f c := le_trans (le_of_not_le hk) hmc
            simp [hxc]
        rw [hstep, hagree, ← ih, hfb]

/-! ## Generic fold invariant -/

theorem foldl_invariant (P : β → Prop) {f : β → α → β} (hP : ∀ b a, P b → P (f b a))
    (l : List α) (init : β) (hinit : P init) : P (l.foldl f init) := by
  induction l generalizing init with
  | nil => exact hinit
  | cons x xs ih => exact ih _ (hP _ _ hinit)

/-! ## Extractor lemmas -/

theorem mkWindowCandidate_bounds {holdings : Int} {asOf : Option String}
    {r : ReconcileResult} {c : Candidate}
    (h : mkWindowCandidate holdings asOf r = some c) :
    c.totalHoldingsBtc = holdings ∧ MIN_AVG_USD ≤ c.avgPurchasePriceUsd ∧
      c.avgPurchasePriceUsd ≤ MAX_AVG_USD := by
  unfold mkWindowCandidate at h
  split at h
  · split at h
    · simp at h
    · rename_i hb
      push_neg at hb
      simp only [Option.some.injEq] at h
      subst h
      exact ⟨rfl, hb.1, hb.2⟩
  · simp at h

theorem processHoldingsMatch_bounds {text : List Char} {m : MatchRes} {c : Candidate}
    (h : processHoldingsMatch text m = some c) :
    0 < c.totalHoldingsBtc ∧ c.totalHoldingsBtc ≤ MAX_HOLDINGS_BTC ∧
      MIN_AVG_USD ≤ c.avgPurchasePriceUsd ∧ c.avgPurchasePriceUsd ≤ MAX_AVG_USD := by
  unfold processHoldingsMatch at h
  split at h
  · simp at h
  · rename_i holdings hp
    split at h
    · simp at h
    · rename_i hbound
      push_neg at hbound
      obtain ⟨hh, h1, h2⟩ := mkWindowCandidate_bounds h
      refine ⟨?_, ?_, h1, h2⟩
      · rw [hh]; exact hbound.1
      · rw [hh]; exact hbound.2

theorem pairStep_ok (holdings : Int) (st : Option ℚ × ReconcileResult) (a e : ℚ × Nat)
    (h : reconcileOk holdings st.2) : reconcileOk holdings (pairStep holdings st a e).2 := by
  by_cases hguard : a.1 = 0 ∨ |e.1 / (holdings : ℚ) - a.1| / a.1 > 35 / 100
  · simp only [pairStep, if_pos hguard]
    exact h
  · have hle : |e.1 / (holdings : ℚ) - a.1| / a.1 ≤ 35 / 100 :=
      le_of_not_lt (not_or.mp hguard).2
    simp only [pairStep, if_neg hguard]
    split
    · intro _ _
      exact ⟨a.1, e.1, rfl, rfl, hle⟩
    · exact h

theorem reconcilePairs_ok (holdings : Int) (avgCandidates entryCandidates : List (ℚ × Nat)) :
    reconcileOk holdings (reconcilePairs holdings avgCandidates entryCandidates) := by
  unfold reconcilePairs
  refine foldl_invariant
    (fun (st : Option ℚ × ReconcileResult) => reconcileOk holdings st.2) ?_
    avgCandidates _ ?_
  · intro st a hst
    exact foldl_invariant
      (fun (st : Option ℚ × ReconcileResult) => reconcileOk holdings st.2)
      (fun st' e hst' => pairStep_ok holdings st' a e hst') entryCandidates st hst
  · intro ha _
    simp at ha

theorem reconcileFallbackAvg_ok (holdings : Int) (avgCandidates : List (ℚ × Nat))
    (r0 : ReconcileResult) (h : reconcileOk holdings r0) :
    reconcileOk holdings (reconcileFallbackAvg holdings avgCandidates r0) := by
  unfold reconcileFallbackAvg
  split
  · intro _ he
    simp at he
  · exact h

theorem reconcileFallbackEntry_ok (holdings : Int) (entryCandidates : List (ℚ × Nat))
    (r1 : ReconcileResult) (h : reconcileOk holdings r1) :
    reconcileOk holdings (reconcileFallbackEntry holdings entryCandidates r1) := by
  unfold reconcileFallbackEntry
  split
  · intro ha _
    simp at ha
  · exact h

theorem reconcileWindow_ok (holdings : Int) (avgCandidates entryCandidates : List (ℚ × Nat)) :
    reconcileOk holdings (reconcileWindow holdings avgCandidates entryCandidates) := by
  unfold reconcileWindow
  apply reconcileFallbackEntry_ok
  apply reconcileFallbackAvg_ok
  split_ifs with hc
  · exact reconcilePairs_ok holdings avgCandidates entryCandidates
  · intro ha _
    simp at ha

/-- C4: in the extractor's reconciliation, whenever an explicit average
candidate and an explicit total-cost candidate are accepted together as a
pair for a holdings value, the accepted pair deviates from its derived
average by at most 35 percent; pairs beyond the tolerance are never the
accepted pair. -/
theorem c4_reconciliation_tolerance (holdings : Int)
    (avgCandidates entryCandidates : List (ℚ × Nat))
    (ha : (reconcileWindow holdings avgCandidates entryCandidates).explicitAvg = true)
    (he : (reconcileWindow holdings avgCandidates entryCandidates).explicitEntry = true) :
    ∃ a e, (reconcileWindow holdings avgCandidates entryCandidates).bestAvg = some a ∧
      (reconcileWindow holdings avgCandidates entryCandidates).bestEntry = some e ∧
      |e / (holdings : ℚ) - a| / a ≤ 35 / 100 :=
  reconcileWindow_ok holdings avgCandidates entryCandidates ha he

unseal Rat.add Rat.mul Rat.sub Rat.inv in
/-- Witness for C4 at a concrete accepted pair: holdings 2, one stated
average 1000 at position 0, one stated total 2000 at position 10. -/
theorem c4_reconciliation_tolerance_witness :
    ∃ a e, (reconcileWindow 2 [((1000 : ℚ), 0)] [((2000 : ℚ), 10)]).bestAvg = some a ∧
      (reconcileWindow 2 [((1000 : ℚ), 0)] [((2000 : ℚ), 10)]).bestEntry = some e ∧
      |e / ((2 : Int) : ℚ) - a| / a ≤ 35 / 100 :=
  c4_reconciliation_tolerance 2 [((1000 : ℚ), 0)] [((2000 : ℚ), 10)]
    (by decide) (by decide)

/-- C3: whenever the extractor returns a result, its holdings figure is
positive and at most five million and its average purchase price lies
within the 1,000 to 2,000,000 USD plausibility band; candidates outside
these bounds never reach the output. -/
theorem c3_extractor_output_bounds (html : String) (r : ExtractedStats)
    (h : extractMstrBtcStatsFromSecFilingHtml html = some r) :
    0 < r.totalHoldingsBtc ∧ r.totalHoldingsBtc ≤ MAX_HOLDINGS_BTC ∧
      MIN_AVG_USD ≤ r.avgPurchasePriceUsd ∧ r.avgPurchasePriceUsd ≤ MAX_AVG_USD := by
  unfold extractMstrBtcStatsFromSecFilingHtml at h
  split at h
  · simp at h
  · rename_i best tl hs
    simp only [Option.some.injEq] at h
    subst h
    have hmem : best ∈ stableSort scoreKeep (extractCandidates html) := by
      rw [hs]
      exact List.mem_cons_self _ _
    have hmem2 : best ∈ (holdingsPatterns.flatMap
        (fun p => getAllMatches (normalizeHtmlText html) p)).filterMap
        (processHoldingsMatch (normalizeHtmlText html)) := by
      simpa [extractCandidates] using mem_stableSort.mp hmem
    obtain ⟨mm, _, hpm⟩ := List.mem_filterMap.mp hmem2
    exact processHoldingsMatch_bounds hpm

set_option maxRecDepth 1000000 in
unseal Rat.add Rat.mul Rat.sub Rat.inv in
/-- Witness for C3 at a concrete document that extracts successfully. -/
theorem c3_extractor_output_bounds_witness :
    0 < (⟨none, 2, 4000, 2000⟩ : ExtractedStats).totalHoldingsBtc ∧
      (⟨none, 2, 4000, 2000⟩ : ExtractedStats).totalHoldingsBtc ≤ MAX_HOLDINGS_BTC ∧
      MIN_AVG_USD ≤ (⟨none, 2, 4000, 2000⟩ : ExtractedStats).avgPurchasePriceUsd ∧
      (⟨none, 2, 4000, 2000⟩ : ExtractedStats).avgPurchasePriceUsd ≤ MAX_AVG_USD :=
  c3_extractor_output_bounds
    "The Company held 2 btc at an average price of $2,000 per btc."
    ⟨none, 2, 4000, 2000⟩ (by decide)

/-- C5: the extractor scores every surviving candidate as the sum of +3
for an explicitly stated average, +2 for an explicitly stated total cost
and +1 for an as-of label found in the window, and it returns the first
candidate in encounter order attaining the maximal score. -/
theorem c5_scoring_and_selection :
    (∀ (holdings : Int) (asOf : Option String) (r : ReconcileResult) (c : Candidate),
        mkWindowCandidate holdings asOf r = some c →
        c.score = (if r.explicitAvg then 3 else 0) + (if r.explicitEntry then 2 else 0) +
          (if jsTruthyStr asOf then 1 else 0)) ∧
    (∀ (html : String) (out : ExtractedStats),
        extractMstrBtcStatsFromSecFilingHtml html = some out →
        ∃ best, (extractCandidates html).find?
            (fun c => (extractCandidates html).all (fun d => d.score ≤ c.score)) =
              some best ∧
          out = ⟨best.asOfDateLabel, best.totalHoldingsBtc, best.totalEntryValueUsd,
            best.avgPurchasePriceUsd⟩) := by
  constructor
  · intro holdings asOf r c h
    unfold mkWindowCandidate at h
    split at h
    · split at h
      · simp at h
      · simp only [Option.some.injEq] at h
        subst h
        rfl
    · simp at h
  · intro html out h
    unfold extractMstrBtcStatsFromSecFilingHtml at h
    split at h
    · simp at h
    · rename_i best tl hs
      simp only [Option.some.injEq] at h
      refine ⟨best, ?_, h.symm⟩
      have h1 : (stableSort scoreKeep (extractCandidates html)).head? = some best := by
        rw [hs]
        rfl
      rw [head?_stableSort] at h1
      have h2 : firstBest (fun a b => decide (Candidate.score b ≤ Candidate.score a))
          (extractCandidates html) = some best := h1
      rw [firstBest_eq_find?_max] at h2
      exact h2

set_option maxRecDepth 1000000 in
unseal Rat.add Rat.mul Rat.sub Rat.inv in
/-- Witness for C5 at concrete inputs: a window candidate with an explicit
average, a derived total and a truthy as-of label scoring 3 + 0 + 1, and a
concrete document on which the extractor picks the first maximal-score
candidate. -/
theorem c5_scoring_and_selection_witness :
    ((⟨some ("June 30, 2024"), 2, 4000, 2000, 4⟩ : Candidate).score =
        (if (⟨some 2000, some 4000, true, false⟩ : ReconcileResult).explicitAvg
          then 3 else 0) +
        (if (⟨some 2000, some 4000, true, false⟩ : ReconcileResult).explicitEntry
          then 2 else 0) +
        (if jsTruthyStr (some ("June 30, 2024")) then 1 else 0)) ∧
    (∃ best,
        (extractCandidates
            "The Company held 2 btc at an average price of $2,000 per btc.").find?
          (fun c => (extractCandidates
              "The Company held 2 btc at an average price of $2,000 per btc.").all
            (fun d => d.score ≤ c.score)) = some best ∧
        (⟨none, 2, 4000, 2000⟩ : ExtractedStats) =
          ⟨best.asOfDateLabel, best.totalHoldingsBtc, best.totalEntryValueUsd,
            best.avgPurchasePriceUsd⟩) :=
  ⟨c5_scoring_and_selection.1 2 (some ("June 30, 2024"))
      ⟨some 2000, some 4000, true, false⟩ ⟨some ("June 30, 2024"), 2, 4000, 2000, 4⟩
      (by decide),
    c5_scoring_and_selection.2
      "The Company held 2 btc at an average price of $2,000 per btc."
      ⟨none, 2, 4000, 2000⟩ (by decide)⟩

set_option maxRecDepth 1000000 in
unseal Rat.add Rat.mul Rat.sub Rat.inv in
/-- C9: on a document containing the holdings phrase, the as-of phrase and
the stated-average phrase of the scenario, the extractor returns holdings
252220, average 36821, the label June 30, 2024, and the total derived as
the exact product of the stated average and the holdings. -/
theorem c9_scenario_extraction :
    extractMstrBtcStatsFromSecFilingHtml
      "The Company held approximately 252,220 BTC. As of June 30, 2024, the average purchase price of $36,821 per bitcoin." =
      some ⟨some ("June 30, 2024"), 252220, 252220 * 36821, 36821⟩ := by
  decide

/-! ## Deduplication lemmas (C2) -/

theorem eq_of_pairwise_key {β : Type} {m : List (Int × β)}
    (hkeys : m.Pairwise (fun a b => a.1 ≠ b.1)) {a b : Int × β}
    (ha : a ∈ m) (hb : b ∈ m) (hk : a.1 = b.1) : a = b := by
  induction m with
  | nil => cases ha
  | cons e t ih =>
    rcases List.pairwise_cons.mp hkeys with ⟨hhead, htail⟩
    rcases List.mem_cons.mp ha with rfl | ha'
    · rcases List.mem_cons.mp hb with rfl | hb'
      · rfl
      · exact absurd hk (hhead b hb')
    · rcases List.mem_cons.mp hb with rfl | hb'
      · exact absurd hk.symm (hhead a ha')
      · exact ih htail ha' hb'

theorem jsMapSetByDate_inv {processed : List MstrTreasurySnapshotPoint}
    {m : List (Int × MstrTreasurySnapshotPoint)} {p : MstrTreasurySnapshotPoint}
    (h : byDateInv processed m) : byDateInv (processed ++ [p]) (jsMapSetByDate m p) := by
  obtain ⟨hkeys, hentries, hcover⟩ := h
  unfold jsMapSetByDate
  cases hf : m.find? (fun e => e.1 = p.xUtcMs) with
  | none =>
    have hnot : ∀ e ∈ m, e.1 ≠ p.xUtcMs := by
      intro e he
      have := List.find?_eq_none.mp hf e he
      simpa using this
    refine ⟨?_, ?_, ?_⟩
    · rw [List.pairwise_append]
      exact ⟨hkeys, List.pairwise_singleton _ _,
        fun a ha b hb => by
          rcases List.mem_singleton.mp hb with rfl
          exact hnot a ha⟩
    · intro e he
      rcases List.mem_append.mp he with he | he
      · rcases hentries e he with ⟨h1, h2⟩
        exact ⟨h1, List.mem_append_left _ h2⟩
      · rcases List.mem_singleton.mp he with rfl
        exact ⟨rfl, List.mem_append_right _ (List.mem_singleton_self _)⟩
    · intro q hq
      rcases List.mem_append.mp hq with hq | hq
      · rcases hcover q hq with ⟨e, he, h1, h2⟩
        exact ⟨e, List.mem_append_left _ he, h1, h2⟩
      · rcases List.mem_singleton.mp hq with rfl
        exact ⟨(q.xUtcMs, q), List.mem_append_right _ (List.mem_singleton_self _),
          rfl, le_refl _⟩
  | some existing =>
    have hex : existing ∈ m ∧ existing.1 = p.xUtcMs := by
      have h1 := List.mem_of_find?_eq_some hf
      have h2 := List.find?_some hf
      exact ⟨h1, by simpa using h2⟩
    dsimp only
    split_ifs with hgt
    · refine ⟨?_, ?_, ?_⟩
      · have : ∀ e : Int × MstrTreasurySnapshotPoint,
            ((if e.1 = p.xUtcMs then (e.1, p) else e) : Int × _).1 = e.1 := by
          intro e
          split <;> rfl
        rw [List.pairwise_map]
        refine hkeys.imp ?_
        intro a b hab
        rw [this a, this b]
        exact hab
      · intro e' he'
        rcases List.mem_map.mp he' with ⟨e, he, rfl⟩
        by_cases hkey : e.1 = p.xUtcMs
        · rw [if_pos hkey]
          exact ⟨hkey.symm, List.mem_append_right _ (List.mem_singleton_self _)⟩
        · rw [if_neg hkey]
          rcases hentries e he with ⟨h1, h2⟩
          exact ⟨h1, List.mem_append_left _ h2⟩
      · intro q hq
        rcases List.mem_append.mp hq with hq | hq
        · rcases hcover q hq with ⟨e, he, h1, h2⟩
          by_cases hkey : e.1 = p.xUtcMs
          · refine ⟨(e.1, p), List.mem_map.mpr ⟨e, he, by rw [if_pos hkey]⟩, h1, ?_⟩
            have hle : existing.2.totalHoldingsBtc < p.totalHoldingsBtc := hgt
            have hee : e = existing :=
              eq_of_pairwise_key hkeys he hex.1 (hkey.trans hex.2.symm)
            calc q.totalHoldingsBtc ≤ e.2.totalHoldingsBtc := h2
              _ ≤ p.totalHoldingsBtc := by rw [hee]; exact le_of_lt hle
          · exact ⟨e, List.mem_map.mpr ⟨e, he, by rw [if_neg hkey]⟩, h1, h2⟩
        · rcases List.mem_singleton.mp hq with rfl
          rcases hex with ⟨hem, hek⟩
          refine ⟨(existing.1, q), List.mem_map.mpr ⟨existing, hem, by rw [if_pos hek]⟩,
            hek, le_refl _⟩
    · refine ⟨hkeys, ?_, ?_⟩
      · intro e he
        rcases hentries e he with ⟨h1, h2⟩
        exact ⟨h1, List.mem_append_left _ h2⟩
      · intro q hq
        rcases List.mem_append.mp hq with hq | hq
        · rcases hcover q hq with ⟨e, he, h1, h2⟩
          exact ⟨e, he, h1, h2⟩
        · rcases List.mem_singleton.mp hq with rfl
          rcases hex with ⟨hem, hek⟩
          exact ⟨existing, hem, hek, le_of_not_lt hgt⟩

theorem byDate_fold_inv (pts : List MstrTreasurySnapshotPoint)
    (processed : List MstrTreasurySnapshotPoint)
    (m : List (Int × MstrTreasurySnapshotPoint)) (h : byDateInv processed m) :
    byDateInv (processed ++ pts) (pts.foldl jsMapSetByDate m) := by
  induction pts generalizing processed m with
  | nil => simpa using h
  | cons p pts ih =>
    have step := jsMapSetByDate_inv (p := p) h
    have hres := ih (processed ++ [p]) (jsMapSetByDate m p) step
    simpa [List.append_assoc] using hres

/-- C2: the deduplicated, date-sorted history has strictly increasing
resolved timestamps (hence at most one snapshot per timestamp and a
deterministic order), every output snapshot is one of the input
snapshots, and every input snapshot is dominated by the output snapshot
at its timestamp, so the largest-holdings snapshot survives. -/
theorem c2_dedup_sorted (points : List MstrTreasurySnapshotPoint) :
    (dedupSortByDate points).Pairwise (fun a b => a.xUtcMs < b.xUtcMs) ∧
    (∀ q ∈ dedupSortByDate points, q ∈ points) ∧
    (∀ p ∈ points, ∃ q ∈ dedupSortByDate points, q.xUtcMs = p.xUtcMs ∧
      p.totalHoldingsBtc ≤ q.totalHoldingsBtc) := by
  have h0 : byDateInv ([] : List MstrTreasurySnapshotPoint) [] :=
    ⟨List.Pairwise.nil, fun e he => absurd he (List.not_mem_nil e),
      fun p hp => absurd hp (List.not_mem_nil p)⟩
  have hinv : byDateInv points (points.foldl jsMapSetByDate []) := by
    simpa using byDate_fold_inv points [] [] h0
  obtain ⟨hkeys, hentries, hcover⟩ := hinv
  have hdedup : dedupSortByDate points =
      stableSort (fun a b => a.xUtcMs ≤ b.xUtcMs)
        ((points.foldl jsMapSetByDate []).map (·.2)) := rfl
  have htot : ∀ a b : MstrTreasurySnapshotPoint,
      (decide (a.xUtcMs ≤ b.xUtcMs)) = true ∨ (decide (b.xUtcMs ≤ a.xUtcMs)) = true := by
    intro a b
    rcases le_total a.xUtcMs b.xUtcMs with h | h
    · exact Or.inl (decide_eq_true h)
    · exact Or.inr (decide_eq_true h)
  have htrans : ∀ a b c : MstrTreasurySnapshotPoint,
      (decide (a.xUtcMs ≤ b.xUtcMs)) = true → (decide (b.xUtcMs ≤ c.xUtcMs)) = true →
      (decide (a.xUtcMs ≤ c.xUtcMs)) = true := by
    intro a b c h1 h2
    exact decide_eq_true (le_trans (of_decide_eq_true h1) (of_decide_eq_true h2))
  have hsorted := pairwise_stableSort htot htrans
    ((points.foldl jsMapSetByDate []).map (·.2))
  have hmapped_ne : ((points.foldl jsMapSetByDate []).map (·.2)).Pairwise
      (fun a b => a.xUtcMs ≠ b.xUtcMs) := by
    rw [List.pairwise_map]
    refine List.Pairwise.imp_of_mem ?_ hkeys
    intro a b ha hb hab
    rw [(hentries a ha).1, (hentries b hb).1]
    exact hab
  have hperm := stableSort_perm (fun a b => a.xUtcMs ≤ b.xUtcMs)
    ((points.foldl jsMapSetByDate []).map (·.2))
  have hsort_ne : (stableSort (fun a b => a.xUtcMs ≤ b.xUtcMs)
      ((points.foldl jsMapSetByDate []).map (·.2))).Pairwise
      (fun a b => a.xUtcMs ≠ b.xUtcMs) :=
    (hperm.pairwise_iff (fun h => Ne.symm h)).mpr hmapped_ne
  refine ⟨?_, ?_, ?_⟩
  · rw [hdedup]
    exact (hsorted.and hsort_ne).imp
      (fun h => lt_of_le_of_ne (of_decide_eq_true h.1) h.2)
  · intro q hq
    rw [hdedup] at hq
    rcases List.mem_map.mp (mem_stableSort.mp hq) with ⟨e, he, rfl⟩
    exact (hentries e he).2
  · intro p hp
    rcases hcover p hp with ⟨e, he, h1, h2⟩
    refine ⟨e.2, ?_, ?_, h2⟩
    · rw [hdedup]
      exact mem_stableSort.mpr (List.mem_map.mpr ⟨e, he, rfl⟩)
    · rw [(hentries e he).1]
      exact h1

/-- Witness for C2 at the dedup scenario of the claim: two snapshots at
the same resolved timestamp with holdings 100,000 and 150,000. -/
theorem c2_dedup_sorted_witness :
    (dedupSortByDate
        [⟨⟨"MicroStrategy", "MSTR", none, none, "", 100000, 1, 1⟩, 0⟩,
         ⟨⟨"MicroStrategy", "MSTR", none, none, "", 150000, 1, 1⟩, 0⟩]).Pairwise
      (fun a b => a.xUtcMs < b.xUtcMs) ∧
    (∀ q ∈ dedupSortByDate
        [⟨⟨"MicroStrategy", "MSTR", none, none, "", 100000, 1, 1⟩, 0⟩,
         ⟨⟨"MicroStrategy", "MSTR", none, none, "", 150000, 1, 1⟩, 0⟩],
      q ∈ ([⟨⟨"MicroStrategy", "MSTR", none, none, "", 100000, 1, 1⟩, 0⟩,
            ⟨⟨"MicroStrategy", "MSTR", none, none, "", 150000, 1, 1⟩, 0⟩] :
        List MstrTreasurySnapshotPoint)) ∧
    (∀ p ∈ ([⟨⟨"MicroStrategy", "MSTR", none, none, "", 100000, 1, 1⟩, 0⟩,
             ⟨⟨"MicroStrategy", "MSTR", none, none, "", 150000, 1, 1⟩, 0⟩] :
        List MstrTreasurySnapshotPoint),
      ∃ q ∈ dedupSortByDate
          [⟨⟨"MicroStrategy", "MSTR", none, none, "", 100000, 1, 1⟩, 0⟩,
           ⟨⟨"MicroStrategy", "MSTR", none, none, "", 150000, 1, 1⟩, 0⟩],
        q.xUtcMs = p.xUtcMs ∧ p.totalHoldingsBtc ≤ q.totalHoldingsBtc) :=
  c2_dedup_sorted
    [⟨⟨"MicroStrategy", "MSTR", none, none, "", 100000, 1, 1⟩, 0⟩,
     ⟨⟨"MicroStrategy", "MSTR", none, none, "", 150000, 1, 1⟩, 0⟩]

/-! ## Error-propagation lemmas (C7) -/

theorem getLast?_cons (a : α) (l : List α) :
    (a :: l).getLast? =
      match l.getLast? with | none => some a | some x => some x := by
  cases l with
  | nil => rfl
  | cons b t =>
    rw [List.getLast?_cons_cons]
    cases h : (b :: t).getLast? with
    | none =>
      exfalso
      have := List.getLast?_eq_none_iff.mp h
      exact absurd this (List.cons_ne_nil b t)
    | some x => rfl

theorem lastErrorAux_eq (outcomes : List FilingOutcome) (acc : Option String) :
    outcomes.foldl (fun acc o => match o with | .error e => some e | .ok _ => acc) acc =
      match (outcomes.filterMap errPart).getLast? with
      | none => acc
      | some e => some e := by
  induction outcomes generalizing acc with
  | nil => rfl
  | cons o l ih =>
    cases o with
    | error e =>
      simp only [List.foldl_cons]
      rw [ih]
      have hfm : List.filterMap errPart (Except.error e :: l) =
          e :: List.filterMap errPart l := by
        simp [List.filterMap_cons, errPart]
      rw [hfm, getLast?_cons]
      cases h : (List.filterMap errPart l).getLast? <;> rfl
    | ok s =>
      simp only [List.foldl_cons]
      rw [ih]
      have hfm : List.filterMap errPart (Except.ok s :: l) =
          List.filterMap errPart l := by
        simp [List.filterMap_cons, errPart]
      rw [hfm]

theorem lastErrorOf_eq_getLast (outcomes : List FilingOutcome) :
    lastErrorOf outcomes = (outcomes.filterMap errPart).getLast? := by
  unfold lastErrorOf
  rw [lastErrorAux_eq]
  cases h : (outcomes.filterMap errPart).getLast? <;> rfl

/-- C7: after a successful submissions-index fetch, the aggregator throws
exactly when the usable dated snapshots are empty; in that case it throws
the last fetch error recorded across the per-filing extractions when one
exists, else the generic could-not-extract error; and one fetched filing
with no extractable fact never causes a throw while some other filing
yields a usable snapshot. -/
theorem c7_failure_semantics (outcomes : List FilingOutcome) :
    ((∃ e, runExtractionPhase outcomes = .error e) ↔
      pointsOfSnapshots (snapshotsOfOutcomes outcomes) = []) ∧
    (pointsOfSnapshots (snapshotsOfOutcomes outcomes) = [] →
      runExtractionPhase outcomes =
        .error (((outcomes.filterMap errPart).getLast?).getD noFactErrorMessage)) ∧
    (∀ s, Except.ok (some s) ∈ outcomes → getTreasurySnapshotUtcMs s ≠ none →
      ∀ e, runExtractionPhase outcomes ≠ .error e) := by
  have hmain : ∀ s, Except.ok (some s) ∈ outcomes →
      getTreasurySnapshotUtcMs s ≠ none →
      pointsOfSnapshots (snapshotsOfOutcomes outcomes) ≠ [] := by
    intro s hs hts
    cases ht : getTreasurySnapshotUtcMs s with
    | none => exact absurd ht hts
    | some t =>
      have h1 : some s ∈ snapshotsOfOutcomes outcomes :=
        List.mem_map.mpr ⟨Except.ok (some s), hs, rfl⟩
      have h2 : s ∈ (snapshotsOfOutcomes outcomes).filterMap id :=
        List.mem_filterMap.mpr ⟨some s, h1, rfl⟩
      have h3 : (⟨s, t⟩ : MstrTreasurySnapshotPoint) ∈
          pointsOfSnapshots (snapshotsOfOutcomes outcomes) :=
        List.mem_filterMap.mpr ⟨s, h2, by rw [ht]; rfl⟩
      exact List.ne_nil_of_mem h3
  refine ⟨?_, ?_, ?_⟩
  · unfold runExtractionPhase
    by_cases hp : pointsOfSnapshots (snapshotsOfOutcomes outcomes) = []
    · rw [if_pos (by simp [hp])]
      simp [hp]
    · rw [if_neg (by simpa [List.isEmpty_iff] using hp)]
      simp [hp]
  · intro hp
    unfold runExtractionPhase
    rw [if_pos (by simp [hp]), lastErrorOf_eq_getLast]
  · intro s hs hts e
    unfold runExtractionPhase
    rw [if_neg (by simpa [List.isEmpty_iff] using hmain s hs hts)]
    simp

/-- Witness for C7 at a concrete outcome list: one fetch error, one
fetched filing with no fact, and one usable snapshot. -/
theorem c7_failure_semantics_witness :
    ((∃ e, runExtractionPhase
        [Except.error "SEC filing request failed (429)", Except.ok none,
         Except.ok (some ⟨"MicroStrategy", "MSTR", none, some ("2024-06-28"), "",
           226331, 1, 1⟩)] = .error e) ↔
      pointsOfSnapshots (snapshotsOfOutcomes
        [Except.error "SEC filing request failed (429)", Except.ok none,
         Except.ok (some ⟨"MicroStrategy", "MSTR", none, some ("2024-06-28"), "",
           226331, 1, 1⟩)]) = []) ∧
    (pointsOfSnapshots (snapshotsOfOutcomes
        [Except.error "SEC filing request failed (429)", Except.ok none,
         Except.ok (some ⟨"MicroStrategy", "MSTR", none, some ("2024-06-28"), "",
           226331, 1, 1⟩)]) = [] →
      runExtractionPhase
        [Except.error "SEC filing request failed (429)", Except.ok none,
         Except.ok (some ⟨"MicroStrategy", "MSTR", none, some ("2024-06-28"), "",
           226331, 1, 1⟩)] =
        .error ((([Except.error "SEC filing request failed (429)", Except.ok none,
          Except.ok (some ⟨"MicroStrategy", "MSTR", none, some ("2024-06-28"), "",
            226331, 1, 1⟩)].filterMap errPart).getLast?).getD noFactErrorMessage)) ∧
    (∀ s, Except.ok (some s) ∈
        [Except.error "SEC filing request failed (429)", Except.ok none,
         Except.ok (some ⟨"MicroStrategy", "MSTR", none, some ("2024-06-28"), "",
           226331, 1, 1⟩)] →
      getTreasurySnapshotUtcMs s ≠ none →
      ∀ e, runExtractionPhase
        [Except.error "SEC filing request failed (429)", Except.ok none,
         Except.ok (some ⟨"MicroStrategy", "MSTR", none, some ("2024-06-28"), "",
           226331, 1, 1⟩)] ≠ .error e) :=
  c7_failure_semantics
    [Except.error "SEC filing request failed (429)", Except.ok none,
     Except.ok (some ⟨"MicroStrategy", "MSTR", none, some ("2024-06-28"), "",
       226331, 1, 1⟩)]

/-! ## Timestamp-resolution lemmas (C10) -/

theorem getTreasurySnapshotUtcMs_characterization (s : MstrTreasurySnapshot) (t : Int)
    (h : getTreasurySnapshotUtcMs s = some t) :
    (jsTruthyStr s.asOfDateLabel = true ∧
      parseAsOfDateLabelToUtcMs (s.asOfDateLabel.getD "") = some t) ∨
    ((jsTruthyStr s.asOfDateLabel = false ∨
        parseAsOfDateLabelToUtcMs (s.asOfDateLabel.getD "") = none) ∧
      jsTruthyStr s.filingDateIso = true ∧
      toUtcMsFromIsoDate (s.filingDateIso.getD "") = some t) := by
  simp only [getTreasurySnapshotUtcMs] at h
  by_cases htr : jsTruthyStr s.asOfDateLabel = true
  · rw [if_pos htr] at h
    cases hp : parseAsOfDateLabelToUtcMs (s.asOfDateLabel.getD "") with
    | some v =>
      rw [hp] at h
      left
      exact ⟨htr, by simpa using h⟩
    | none =>
      rw [hp] at h
      right
      refine ⟨Or.inr rfl, ?_⟩
      by_cases hf : jsTruthyStr s.filingDateIso = true
      · rw [if_pos hf] at h
        exact ⟨hf, h⟩
      · rw [if_neg hf] at h
        exact absurd h (by simp)
  · rw [if_neg htr] at h
    right
    refine ⟨Or.inl (by simpa using htr), ?_⟩
    by_cases hf : jsTruthyStr s.filingDateIso = true
    · rw [if_pos hf] at h
      exact ⟨hf, h⟩
    · rw [if_neg hf] at h
      exact absurd h (by simp)

theorem parseAsOfDateLabel_formats (lbl : String) (t : Int)
    (h : parseAsOfDateLabelToUtcMs lbl = some t) :
    (reMatchFull reLabelMonthName (jsTrim lbl.toList)).isSome = true ∨
    (reMatchFull reLabelSlashed (jsTrim lbl.toList)).isSome = true := by
  simp only [parseAsOfDateLabelToUtcMs] at h
  cases hm : reMatchFull reLabelMonthName (jsTrim lbl.toList) with
  | some m => exact Or.inl (by simp [hm])
  | none =>
    cases hs : reMatchFull reLabelSlashed (jsTrim lbl.toList) with
    | some m => exact Or.inr (by simp [hs])
    | none =>
      rw [hm, hs] at h
      exact absurd h (by simp)

/-- C10: every aggregated history point is a snapshot paired with exactly
the timestamp its as-of label (month-name or slashed format) or, failing
that, its ISO filing date resolves to; snapshots resolving to no
timestamp are silently dropped from the points list. -/
theorem c10_timestamp_resolution (snapshots : List (Option MstrTreasurySnapshot)) :
    (∀ p, p ∈ pointsOfSnapshots snapshots ↔
      ∃ s, some s ∈ snapshots ∧ getTreasurySnapshotUtcMs s = some p.xUtcMs ∧
        p = ⟨s, p.xUtcMs⟩) ∧
    (∀ s t, getTreasurySnapshotUtcMs s = some t →
      (jsTruthyStr s.asOfDateLabel = true ∧
        parseAsOfDateLabelToUtcMs (s.asOfDateLabel.getD "") = some t) ∨
      ((jsTruthyStr s.asOfDateLabel = false ∨
          parseAsOfDateLabelToUtcMs (s.asOfDateLabel.getD "") = none) ∧
        jsTruthyStr s.filingDateIso = true ∧
        toUtcMsFromIsoDate (s.filingDateIso.getD "") = some t)) ∧
    (∀ lbl t, parseAsOfDateLabelToUtcMs lbl = some t →
      (reMatchFull reLabelMonthName (jsTrim lbl.toList)).isSome = true ∨
      (reMatchFull reLabelSlashed (jsTrim lbl.toList)).isSome = true) ∧
    (∀ s, some s ∈ snapshots → getTreasurySnapshotUtcMs s = none →
      ¬∃ p ∈ pointsOfSnapshots snapshots, p.toMstrTreasurySnapshot = s) := by
  have hmem : ∀ p, p ∈ pointsOfSnapshots snapshots ↔
      ∃ s, some s ∈ snapshots ∧ getTreasurySnapshotUtcMs s = some p.xUtcMs ∧
        p = ⟨s, p.xUtcMs⟩ := by
    intro p
    unfold pointsOfSnapshots
    rw [List.mem_filterMap]
    constructor
    · rintro ⟨s, hs, hmap⟩
      rcases Option.map_eq_some'.mp hmap with ⟨t, ht, rfl⟩
      have hsome : some s ∈ snapshots := by
        rcases List.mem_filterMap.mp hs with ⟨o, ho, hid⟩
        cases o with
        | none => simp at hid
        | some s' =>
          have : s' = s := by simpa using hid
          subst this
          exact ho
      exact ⟨s, hsome, ht, rfl⟩
    · rintro ⟨s, hs, ht, hp⟩
      refine ⟨s, List.mem_filterMap.mpr ⟨some s, hs, rfl⟩, ?_⟩
      rw [ht, Option.map_some']
      exact congrArg some hp.symm
  refine ⟨hmem, getTreasurySnapshotUtcMs_characterization,
    parseAsOfDateLabel_formats, ?_⟩
  rintro s hs hnone ⟨p, hp, hps⟩
  rcases (hmem p).mp hp with ⟨s', _, ht', hp'⟩
  have : s' = s := by
    rw [hp'] at hps
    exact hps
  subst this
  rw [ht'] at hnone
  exact absurd hnone (by simp)

set_option maxRecDepth 200000 in
/-- Witness for C10 at a concrete snapshot list: one label-resolved
snapshot, one filing-date-resolved snapshot, one unresolvable snapshot. -/
theorem c10_timestamp_resolution_witness :
    ((⟨⟨"MicroStrategy", "MSTR", some ("June 30, 2024"), none, "", 1, 1, 1⟩,
        1719705600000⟩ : MstrTreasurySnapshotPoint) ∈
      pointsOfSnapshots
        [some ⟨"MicroStrategy", "MSTR", some ("June 30, 2024"), none, "", 1, 1, 1⟩,
         some ⟨"MicroStrategy", "MSTR", some ("nonsense"), some ("2024-06-30"), "", 2, 1, 1⟩,
         some ⟨"MicroStrategy", "MSTR", some ("nonsense"), none, "", 3, 1, 1⟩]) ∧
    getTreasurySnapshotUtcMs
      ⟨"MicroStrategy", "MSTR", some ("nonsense"), some ("2024-06-30"), "", 2, 1, 1⟩ =
      some 1719705600000 ∧
    (¬∃ p ∈ pointsOfSnapshots
        [some ⟨"MicroStrategy", "MSTR", some ("June 30, 2024"), none, "", 1, 1, 1⟩,
         some ⟨"MicroStrategy", "MSTR", some ("nonsense"), some ("2024-06-30"), "", 2, 1, 1⟩,
         some ⟨"MicroStrategy", "MSTR", some ("nonsense"), none, "", 3, 1, 1⟩],
      p.toMstrTreasurySnapshot =
        ⟨"MicroStrategy", "MSTR", some ("nonsense"), none, "", 3, 1, 1⟩) := by
  refine ⟨?_, by decide, ?_⟩
  · exact ((c10_timestamp_resolution
      [some ⟨"MicroStrategy", "MSTR", some ("June 30, 2024"), none, "", 1, 1, 1⟩,
       some ⟨"MicroStrategy", "MSTR", some ("nonsense"), some ("2024-06-30"), "", 2, 1, 1⟩,
       some ⟨"MicroStrategy", "MSTR", some ("nonsense"), none, "", 3, 1, 1⟩]).1 _).mpr
      ⟨⟨"MicroStrategy", "MSTR", some ("June 30, 2024"), none, "", 1, 1, 1⟩,
        by decide, by decide, rfl⟩
  · exact (c10_timestamp_resolution
      [some ⟨"MicroStrategy", "MSTR", some ("June 30, 2024"), none, "", 1, 1, 1⟩,
       some ⟨"MicroStrategy", "MSTR", some ("nonsense"), some ("2024-06-30"), "", 2, 1, 1⟩,
       some ⟨"MicroStrategy", "MSTR", some ("nonsense"), none, "", 3, 1, 1⟩]).2.2.2
      ⟨"MicroStrategy", "MSTR", some ("nonsense"), none, "", 3, 1, 1⟩
      (by decide) (by decide)

/-! ## Lexicographic string order lemmas -/

theorem charListLt_trans : ∀ {a b c : List Char},
    charListLt a b = true → charListLt b c = true → charListLt a c = true := by
  intro a
  induction a with
  | nil =>
    intro b c h1 h2
    cases b with
    | nil => simp [charListLt] at h1
    | cons y ys =>
      cases c with
      | nil => simp [charListLt] at h2
      | cons z zs => rfl
  | cons x xs ih =>
    intro b c h1 h2
    cases b with
    | nil => simp [charListLt] at h1
    | cons y ys =>
      cases c with
      | nil => simp [charListLt] at h2
      | cons z zs =>
        simp only [charListLt] at h1 h2 ⊢
        by_cases hxy : x < y
        · by_cases hyz : y < z
          · rw [if_pos (lt_trans hxy hyz)]
          · by_cases hzy : z < y
            · rw [if_neg hyz, if_pos hzy] at h2
              exact absurd h2 (by simp)
            · have hyz' : y = z := le_antisymm (not_lt.mp hzy) (not_lt.mp hyz)
              rw [if_pos (hyz' ▸ hxy)]
        · by_cases hyx : y < x
          · rw [if_neg hxy, if_pos hyx] at h1
            exact absurd h1 (by simp)
          · have hxy' : x = y := le_antisymm (not_lt.mp hyx) (not_lt.mp hxy)
            subst hxy'
            rw [if_neg hxy, if_neg hyx] at h1
            by_cases hyz : x < z
            · rw [if_pos hyz]
            · by_cases hzy : z < x
              · rw [if_neg hyz, if_pos hzy] at h2
                exact absurd h2 (by simp)
              · have hyz' : x = z := le_antisymm (not_lt.mp hzy) (not_lt.mp hyz)
                subst hyz'
                rw [if_neg hyz, if_neg hzy] at h2 ⊢
                exact ih h1 h2

theorem charListLt_eq_of_not : ∀ {a b : List Char},
    charListLt a b = false → charListLt b a = false → a = b := by
  intro a
  induction a with
  | nil =>
    intro b h1 _
    cases b with
    | nil => rfl
    | cons y ys => simp [charListLt] at h1
  | cons x xs ih =>
    intro b h1 h2
    cases b with
    | nil => simp [charListLt] at h2
    | cons y ys =>
      simp only [charListLt] at h1 h2
      by_cases hxy : x < y
      · rw [if_pos hxy] at h1
        exact absurd h1 (by simp)
      · by_cases hyx : y < x
        · rw [if_pos hyx] at h2
          exact absurd h2 (by simp)
        · have hxy' : x = y := le_antisymm (not_lt.mp hyx) (not_lt.mp hxy)
          subst hxy'
          rw [if_neg hxy, if_neg hyx] at h1
          rw [if_neg hxy, if_neg hyx] at h2
          rw [ih h1 h2]

theorem strLe_trans {a b c : String} (h1 : strLe a b = true) (h2 : strLe b c = true) :
    strLe a c = true := by
  unfold strLe strLt at h1 h2 ⊢
  simp only [Bool.not_eq_true'] at h1 h2 ⊢
  by_contra hca
  rw [Bool.not_eq_false] at hca
  by_cases hcb : charListLt c.toList b.toList = true
  · exact absurd hcb (by rw [h2]; simp)
  · by_cases hbc : charListLt b.toList c.toList = true
    · have := charListLt_trans hbc hca
      rw [h1] at this
      exact absurd this (by simp)
    · have heq : b.toList = c.toList :=
        charListLt_eq_of_not (by simpa using hbc) (by simpa using hcb)
      rw [← heq] at hca
      rw [h1] at hca
      exact absurd hca (by simp)

theorem strLt_strLe_false {a b : String} (h : strLt a b = true) :
    strLe b a = false := by
  unfold strLe
  simp [h]

/-! ## Supplementary-page selection lemmas (C6) -/

theorem earliestCoveredOf_append (l : List (String × Option String × Option String))
    (f : String × Option String × Option String) :
    earliestCoveredOf (l ++ [f]) = foldEarliest (earliestCoveredOf l) (coverCand f) := by
  unfold earliestCoveredOf
  rw [List.foldl_append]
  rfl

theorem suppLoop_spec :
    ∀ (ranges processed : List (String × Option String × Option String)),
    coverageReached processed = false →
    processed.length < maxSupplementalFilesToFetch →
    ∃ n, n ≤ ranges.length ∧
      suppLoop ranges (processed.map (·.1)) (earliestCoveredOf processed) =
        (processed ++ ranges.take n).map (·.1) ∧
      (processed ++ ranges.take n).length ≤ maxSupplementalFilesToFetch ∧
      (n < ranges.length →
        coverageReached (processed ++ ranges.take n) = true ∨
        (processed ++ ranges.take n).length = maxSupplementalFilesToFetch) ∧
      (∀ m, processed.length < m → m < (processed ++ ranges.take n).length →
        coverageReached ((processed ++ ranges.take n).take m) = false) ∧
      (ranges ≠ [] → 1 ≤ n) := by
  intro ranges
  induction ranges with
  | nil =>
    intro processed hcov hlen
    refine ⟨0, le_refl _, by simp [suppLoop], by simpa using le_of_lt hlen, ?_, ?_, ?_⟩
    · intro h
      exact absurd h (by simp)
    · intro m h1 h2
      simp only [List.take_nil, List.append_nil] at h2
      omega
    · intro h
      exact absurd rfl h
  | cons f rest ih =>
    intro processed hcov hlen
    have hE : foldEarliest (earliestCoveredOf processed) (coverCand f) =
        earliestCoveredOf (processed ++ [f]) := (earliestCoveredOf_append _ _).symm
    have hacc : processed.map (·.1) ++ [f.1] = (processed ++ [f]).map (·.1) := by
      simp
    have htake1 : (f :: rest).take 1 = [f] := rfl
    have hlen1 : (processed ++ [f]).length = processed.length + 1 := by
      simp
    by_cases hc : coverageReached (processed ++ [f]) = true
    · refine ⟨1, by simp, ?_, ?_, ?_, ?_, ?_⟩
      · simp only [suppLoop]
        rw [hE]
        rw [show coveredBy (earliestCoveredOf (processed ++ [f])) =
          coverageReached (processed ++ [f]) from rfl]
        rw [if_pos hc, hacc, htake1]
      · rw [htake1, hlen1]
        omega
      · intro _
        left
        rw [htake1]
        exact hc
      · intro m h1 h2
        rw [htake1, hlen1] at h2
        omega
      · intro _
        exact le_refl 1
    · by_cases hcap : (processed ++ [f]).length ≥ maxSupplementalFilesToFetch
      · refine ⟨1, by simp, ?_, ?_, ?_, ?_, ?_⟩
        · simp only [suppLoop]
          rw [hE]
          rw [show coveredBy (earliestCoveredOf (processed ++ [f])) =
            coverageReached (processed ++ [f]) from rfl]
          rw [if_neg (by simp [hc]), hacc]
          rw [if_pos (by rw [← hacc]; simpa using hcap), htake1]
        · rw [htake1, hlen1]
          rw [hlen1] at hcap
          omega
        · intro _
          right
          rw [htake1, hlen1]
          rw [hlen1] at hcap
          omega
        · intro m h1 h2
          rw [htake1, hlen1] at h2
          omega
        · intro _
          exact le_refl 1
      · push_neg at hcap
        obtain ⟨n', hn'le, hloop, hlen', hstop', hmin', _⟩ :=
          ih (processed ++ [f]) (by simpa using hc) hcap
        have htakeS : (f :: rest).take (n' + 1) = f :: rest.take n' := rfl
        have hassoc : processed ++ f :: rest.take n' = (processed ++ [f]) ++ rest.take n' := by
          simp
        refine ⟨n' + 1, by simpa using Nat.succ_le_succ hn'le, ?_, ?_, ?_, ?_, ?_⟩
        · simp only [suppLoop]
          rw [hE]
          rw [show coveredBy (earliestCoveredOf (processed ++ [f])) =
            coverageReached (processed ++ [f]) from rfl]
          rw [if_neg (by simp [hc]), hacc]
          rw [if_neg (by rw [← hacc]; simpa using not_le.mpr hcap)]
          rw [hloop, htakeS, hassoc]
        · rw [htakeS, hassoc]
          exact hlen'
        · intro hlt
          rw [htakeS, hassoc]
          have hn'lt : n' < rest.length := by
            simp only [List.length_cons] at hlt
            omega
          exact hstop' hn'lt
        · intro m h1 h2
          rw [htakeS, hassoc] at h2 ⊢
          by_cases hm : m = (processed ++ [f]).length
          · subst hm
            rw [List.take_append_of_le_length (le_refl _), List.take_length]
            simpa using hc
          · refine hmin' m ?_ h2
            rw [hlen1] at hm ⊢
            omega
        · intro _
          omega

/-- C6 counterexample: a submissions-index response whose inline recent
list already covers the window start (earliest inline filing date
2020-07-01, on or before 2020-08-01) while one supplementary history file
is still selected for fetching: the code bases the stopping check on the
supplementary files' own ranges, never on the inline list. -/
theorem c6_counterexample :
    earliestFilingDate
        (⟨[⟨"0001050446-20-000001", some ("2020-07-01"), none, "8-K"⟩],
          [⟨some ("CIK0001050446-submissions-001.json"), some ("2010-01-01"),
            some ("2024-01-01")⟩]⟩ : SecSubmissionsResponse).recent =
      some ("2020-07-01") ∧
    strLe "2020-07-01" startIsoDate = true ∧
    selectSupplementalFiles
      ⟨[⟨"0001050446-20-000001", some ("2020-07-01"), none, "8-K"⟩],
       [⟨some ("CIK0001050446-submissions-001.json"), some ("2010-01-01"),
         some ("2024-01-01")⟩]⟩ =
      ["CIK0001050446-submissions-001.json"] := by
  refine ⟨by decide, by decide, by decide⟩

/-- C6 (amended): supplementary-page selection is independent of the
inline recent list; pages are taken from the front of the name-filtered,
start-filtered, range-end-descending list only as needed, stopping once
the accumulated earliest covered date (filingFrom, else filingTo; a file
whose coalesced date is null or empty contributes nothing) reaches the
window start or the 80-page cap is hit, and at least one page is selected
whenever any passes the filter. -/
theorem c6_supplemental_selection (resp : SecSubmissionsResponse) :
    (∀ resp2 : SecSubmissionsResponse, resp2.files = resp.files →
      selectSupplementalFiles resp2 = selectSupplementalFiles resp) ∧
    (selectSupplementalFiles resp).length ≤ maxSupplementalFilesToFetch ∧
    (∃ n, n ≤ (supplementalFileRanges resp).length ∧
      selectSupplementalFiles resp = ((supplementalFileRanges resp).take n).map (·.1) ∧
      (n < (supplementalFileRanges resp).length →
        coverageReached ((supplementalFileRanges resp).take n) = true ∨
        n = maxSupplementalFilesToFetch) ∧
      (∀ m, 0 < m → m < n →
        coverageReached ((supplementalFileRanges resp).take m) = false) ∧
      (supplementalFileRanges resp ≠ [] → 1 ≤ n)) := by
  obtain ⟨n, hle, hloop, hlen, hstop, hmin, hne⟩ :=
    suppLoop_spec (supplementalFileRanges resp) [] rfl (by norm_num [maxSupplementalFilesToFetch])
  have hsel : selectSupplementalFiles resp =
      ((supplementalFileRanges resp).take n).map (·.1) := by
    unfold selectSupplementalFiles
    simpa using hloop
  have htlen : ((supplementalFileRanges resp).take n).length = n :=
    by rw [List.length_take]; exact min_eq_left hle
  refine ⟨?_, ?_, n, hle, hsel, ?_, ?_, hne⟩
  · intro resp2 h2
    unfold selectSupplementalFiles supplementalFileRanges
    rw [h2]
  · rw [hsel, List.length_map, htlen]
    simpa [htlen] using hlen
  · intro hlt
    rcases hstop hlt with h | h
    · left
      simpa using h
    · right
      simpa [htlen] using h
  · intro m h0 hmn
    have := hmin m (by simpa using h0) (by simpa [htlen] using hmn)
    rw [List.nil_append, List.take_take] at this
    rwa [min_eq_left (le_of_lt hmn)] at this

/-- Witness for C6 (amended) at a concrete response with two
supplementary files, the first of which carries an empty (falsy)
filingFrom: it contributes nothing to coverage, so both pages are
selected. -/
theorem c6_supplemental_selection_witness :
    selectSupplementalFiles
      (⟨[], [⟨some ("a.json"), some (""), some ("2024-01-01")⟩,
        ⟨some ("b.json"), some ("2010-01-01"), some ("2023-01-01")⟩]⟩ :
          SecSubmissionsResponse) = ["a.json", "b.json"] ∧
    ((∀ resp2 : SecSubmissionsResponse,
      resp2.files = (⟨[], [⟨some ("a.json"), some (""), some ("2024-01-01")⟩,
        ⟨some ("b.json"), some ("2010-01-01"), some ("2023-01-01")⟩]⟩ :
          SecSubmissionsResponse).files →
      selectSupplementalFiles resp2 = selectSupplementalFiles
        ⟨[], [⟨some ("a.json"), some (""), some ("2024-01-01")⟩,
          ⟨some ("b.json"), some ("2010-01-01"), some ("2023-01-01")⟩]⟩) ∧
    (selectSupplementalFiles
      ⟨[], [⟨some ("a.json"), some (""), some ("2024-01-01")⟩,
        ⟨some ("b.json"), some ("2010-01-01"), some ("2023-01-01")⟩]⟩).length ≤
      maxSupplementalFilesToFetch ∧
    (∃ n, n ≤ (supplementalFileRanges
        ⟨[], [⟨some ("a.json"), some (""), some ("2024-01-01")⟩,
          ⟨some ("b.json"), some ("2010-01-01"), some ("2023-01-01")⟩]⟩).length ∧
      selectSupplementalFiles
        ⟨[], [⟨some ("a.json"), some (""), some ("2024-01-01")⟩,
          ⟨some ("b.json"), some ("2010-01-01"), some ("2023-01-01")⟩]⟩ =
        ((supplementalFileRanges
          ⟨[], [⟨some ("a.json"), some (""), some ("2024-01-01")⟩,
            ⟨some ("b.json"), some ("2010-01-01"), some ("2023-01-01")⟩]⟩).take n).map
          (·.1) ∧
      (n < (supplementalFileRanges
          ⟨[], [⟨some ("a.json"), some (""), some ("2024-01-01")⟩,
            ⟨some ("b.json"), some ("2010-01-01"), some ("2023-01-01")⟩]⟩).length →
        coverageReached ((supplementalFileRanges
          ⟨[], [⟨some ("a.json"), some (""), some ("2024-01-01")⟩,
            ⟨some ("b.json"), some ("2010-01-01"), some ("2023-01-01")⟩]⟩).take n) =
          true ∨
        n = maxSupplementalFilesToFetch) ∧
      (∀ m, 0 < m → m < n →
        coverageReached ((supplementalFileRanges
          ⟨[], [⟨some ("a.json"), some (""), some ("2024-01-01")⟩,
            ⟨some ("b.json"), some ("2010-01-01"), some ("2023-01-01")⟩]⟩).take m) =
          false) ∧
      (supplementalFileRanges
          ⟨[], [⟨some ("a.json"), some (""), some ("2024-01-01")⟩,
            ⟨some ("b.json"), some ("2010-01-01"), some ("2023-01-01")⟩]⟩ ≠ [] →
        1 ≤ n))) :=
  ⟨by decide,
    c6_supplemental_selection
      ⟨[], [⟨some ("a.json"), some (""), some ("2024-01-01")⟩,
        ⟨some ("b.json"), some ("2010-01-01"), some ("2023-01-01")⟩]⟩⟩

/-! ## Candidate-selection lemmas (C8) -/

theorem countOldMonth_append (c m : String) (sel : List FilingRef) (g : FilingRef) :
    countOldMonth c m (sel ++ [g]) =
      countOldMonth c m sel + (if isOldInMonth c m g then 1 else 0) := by
  unfold countOldMonth
  rw [List.filter_append]
  cases hio : isOldInMonth c m g <;> simp [List.filter_singleton, hio]

theorem isRecentFiling_date {c : String} {g : FilingRef}
    (h : isRecentFiling c g = true) :
    ∃ d, g.filingDateIso = some d ∧ d.isEmpty = false ∧ strLe c d = true := by
  unfold isRecentFiling at h
  split at h
  · rename_i d hd
    refine ⟨d, hd, ?_, ?_⟩
    · cases he : d.isEmpty with
      | false => rfl
      | true => rw [he] at h; simp at h
    · cases hle : strLe c d with
      | true => rfl
      | false => rw [hle] at h; simp at h
  · simp at h

theorem monthKeyOf_date {g : FilingRef} {mk : String}
    (h : monthKeyOf g = some mk) :
    ∃ d, g.filingDateIso = some d ∧ d.isEmpty = false ∧
      getMonthKeyFromIsoDate d = mk := by
  unfold monthKeyOf at h
  split at h
  · rename_i d hd
    split at h
    · simp at h
    · rename_i hne
      exact ⟨d, hd, by simpa using hne, by simpa using h⟩
  · simp at h

theorem notPreStart_le {g : FilingRef} {d : String} (hpre : isPreStart g = false)
    (hd : g.filingDateIso = some d) (hne : d.isEmpty = false) :
    strLe startIsoDate d = true := by
  unfold isPreStart at hpre
  split at hpre
  · rename_i d' hd'
    rw [hd] at hd'
    injection hd' with hdd
    subst hdd
    rw [hne] at hpre
    simp only [Bool.not_false, Bool.true_and] at hpre
    unfold strLe
    rw [hpre]
    rfl
  · rename_i h0
    rw [hd] at h0
    simp at h0

theorem selInv_push_recent {c : String} {st : SelState} {g : FilingRef}
    (h : selInv c st) (hcap : st.selected.length < maxSelectedFilings)
    (hpre : isPreStart g = false) (hrec : isRecentFiling c g = true)
    (hform : isTreasuryDisclosureForm g.form = true) :
    selInv c ⟨st.selected ++ [g], st.monthCounts, g.accessionNumber :: st.seen⟩ := by
  obtain ⟨hforms, hlen, hdates, hcounts, hcap2⟩ := h
  obtain ⟨d, hd, hne, _⟩ := isRecentFiling_date hrec
  have hold : ∀ m, isOldInMonth c m g = false := by
    intro m
    unfold isOldInMonth
    rw [hrec]
    rfl
  refine ⟨?_, ?_, ?_, ?_, ?_⟩
  · intro f hf
    rcases List.mem_append.mp hf with hf | hf
    · exact hforms f hf
    · rcases List.mem_singleton.mp hf with rfl
      exact hform
  · simp only [List.length_append, List.length_singleton]
    omega
  · intro f hf
    rcases List.mem_append.mp hf with hf | hf
    · exact hdates f hf
    · rcases List.mem_singleton.mp hf with rfl
      exact ⟨d, hd, hne, notPreStart_le hpre hd hne⟩
  · intro m
    rw [countOldMonth_append, hold m]
    simpa using hcounts m
  · intro m
    rw [countOldMonth_append, hold m]
    simpa using hcap2 m

theorem selInv_push_old {c : String} {st : SelState} {g : FilingRef} {mk : String}
    (h : selInv c st) (hcap : st.selected.length < maxSelectedFilings)
    (hpre : isPreStart g = false) (hrec : isRecentFiling c g = false)
    (hmk : monthKeyOf g = some mk)
    (hcnt : st.monthCounts mk < maxSampledFilingsPerMonth)
    (hform : isTreasuryDisclosureForm g.form = true) :
    selInv c ⟨st.selected ++ [g],
      fun k => if k = mk then st.monthCounts mk + 1 else st.monthCounts k,
      g.accessionNumber :: st.seen⟩ := by
  obtain ⟨hforms, hlen, hdates, hcounts, hcap2⟩ := h
  obtain ⟨d, hd, hne, hmkd⟩ := monthKeyOf_date hmk
  have hold : ∀ m, isOldInMonth c m g = (decide (mk = m)) := by
    intro m
    unfold isOldInMonth
    rw [hrec, hmk]
    simp
  refine ⟨?_, ?_, ?_, ?_, ?_⟩
  · intro f hf
    rcases List.mem_append.mp hf with hf | hf
    · exact hforms f hf
    · rcases List.mem_singleton.mp hf with rfl
      exact hform
  · simp only [List.length_append, List.length_singleton]
    omega
  · intro f hf
    rcases List.mem_append.mp hf with hf | hf
    · exact hdates f hf
    · rcases List.mem_singleton.mp hf with rfl
      exact ⟨d, hd, hne, notPreStart_le hpre hd hne⟩
  · intro m
    rw [countOldMonth_append, hold m]
    dsimp only
    by_cases hm : m = mk
    · subst hm
      rw [if_pos rfl, if_pos (by simp), hcounts m]
    · rw [if_neg hm, if_neg (show ¬(decide (mk = m)) = true by
        simp only [decide_eq_true_eq]
        exact fun hmm => hm hmm.symm), hcounts m]
      omega
  · intro m
    rw [countOldMonth_append, hold m]
    by_cases hm : mk = m
    · subst hm
      rw [if_pos (by simp)]
      have h1 := hcounts mk
      have h2 := hcnt
      omega
    · rw [if_neg (by simp [hm])]
      have h3 := hcap2 m
      omega

theorem isPreStart_date {g : FilingRef} (h : isPreStart g = true) :
    ∃ d, g.filingDateIso = some d ∧ d.isEmpty = false ∧
      strLt d startIsoDate = true := by
  unfold isPreStart at h
  split at h
  · rename_i d hd
    refine ⟨d, hd, ?_, ?_⟩
    · cases he : d.isEmpty with
      | false => rfl
      | true => rw [he] at h; simp at h
    · cases hlt : strLt d startIsoDate with
      | true => rfl
      | false => rw [hlt] at h; simp at h
  · simp at h

theorem selectLoop_inv (c : String) :
    ∀ (l : List FilingRef) (st : SelState), selInv c st →
      selInv c (selectLoop c l st) := by
  intro l
  induction l with
  | nil =>
    intro st h
    simpa [selectLoop] using h
  | cons g rest ih =>
    intro st h
    simp only [selectLoop]
    by_cases h1 : skipFiling g = true
    · rw [if_pos h1]
      exact ih st h
    · rw [if_neg h1]
      by_cases h2 : g.accessionNumber ∈ st.seen
      · rw [if_pos h2]
        exact ih st h
      · rw [if_neg h2]
        by_cases h3 : isPreStart g = true
        · rw [if_pos h3]
          exact h
        · rw [if_neg h3]
          by_cases h4 : st.selected.length ≥ maxSelectedFilings
          · rw [if_pos h4]
            exact h
          · rw [if_neg h4]
            push_neg at h4
            have hform : isTreasuryDisclosureForm g.form = true := by
              cases ht : isTreasuryDisclosureForm g.form with
              | true => rfl
              | false =>
                exfalso
                apply h1
                unfold skipFiling
                rw [ht]
                simp
            by_cases h5 : isRecentFiling c g = true
            · rw [if_pos h5]
              exact ih _ (selInv_push_recent h h4 (by simpa using h3) h5 hform)
            · rw [if_neg h5]
              cases hmk : monthKeyOf g with
              | none => exact ih st h
              | some mk =>
                dsimp only
                by_cases h6 : st.monthCounts mk ≥ maxSampledFilingsPerMonth
                · rw [if_pos h6]
                  exact ih st h
                · rw [if_neg h6]
                  push_neg at h6
                  exact ih _ (selInv_push_old h h4 (by simpa using h3)
                    (by simpa using h5) hmk h6 hform)

theorem selectLoop_selected_mono (c : String) :
    ∀ (l : List FilingRef) (st : SelState), ∃ suffix,
      (selectLoop c l st).selected = st.selected ++ suffix := by
  intro l
  induction l with
  | nil =>
    intro st
    exact ⟨[], by simp [selectLoop]⟩
  | cons g rest ih =>
    intro st
    simp only [selectLoop]
    by_cases h1 : skipFiling g = true
    · rw [if_pos h1]
      exact ih st
    · rw [if_neg h1]
      by_cases h2 : g.accessionNumber ∈ st.seen
      · rw [if_pos h2]
        exact ih st
      · rw [if_neg h2]
        by_cases h3 : isPreStart g = true
        · rw [if_pos h3]
          exact ⟨[], by simp⟩
        · rw [if_neg h3]
          by_cases h4 : st.selected.length ≥ maxSelectedFilings
          · rw [if_pos h4]
            exact ⟨[], by simp⟩
          · rw [if_neg h4]
            by_cases h5 : isRecentFiling c g = true
            · rw [if_pos h5]
              obtain ⟨suf, hsuf⟩ := ih
                ⟨st.selected ++ [g], st.monthCounts, g.accessionNumber :: st.seen⟩
              exact ⟨[g] ++ suf, by rw [hsuf]; simp⟩
            · rw [if_neg h5]
              cases hmk : monthKeyOf g with
              | none => exact ih st
              | some mk =>
                dsimp only
                by_cases h6 : st.monthCounts mk ≥ maxSampledFilingsPerMonth
                · rw [if_pos h6]
                  exact ih st
                · rw [if_neg h6]
                  obtain ⟨suf, hsuf⟩ := ih
                    ⟨st.selected ++ [g],
                      fun k => if k = mk then st.monthCounts mk + 1
                        else st.monthCounts k,
                      g.accessionNumber :: st.seen⟩
                  exact ⟨[g] ++ suf, by rw [hsuf]; simp⟩

theorem selectLoop_keeps_recent (c : String) :
    ∀ (l : List FilingRef) (st : SelState) (f : FilingRef),
    f ∈ l →
    List.Pairwise (fun a b => strLe (filingDateKey b) (filingDateKey a) = true) l →
    List.Pairwise (fun a b => a.accessionNumber ≠ b.accessionNumber) l →
    f.accessionNumber ∉ st.seen →
    isTreasuryDisclosureForm f.form = true →
    f.accessionNumber.isEmpty = false →
    f.form.isEmpty = false →
    isRecentFiling c f = true →
    strLe startIsoDate c = true →
    (selectLoop c l st).selected.length < maxSelectedFilings →
    f ∈ (selectLoop c l st).selected := by
  intro l
  induction l with
  | nil =>
    intro st f hf
    cases hf
  | cons g rest ih =>
    intro st f hf hsort hdist hseen hform hacc hfne hrec hsc hfin
    obtain ⟨hsortg, hsortrest⟩ := List.pairwise_cons.mp hsort
    obtain ⟨hdistg, hdistrest⟩ := List.pairwise_cons.mp hdist
    obtain ⟨df, hdf, hdfne, hcdf⟩ := isRecentFiling_date hrec
    by_cases h1 : skipFiling g = true
    · have hstep : selectLoop c (g :: rest) st = selectLoop c rest st := by
        simp only [selectLoop]
        rw [if_pos h1]
      rw [hstep] at hfin ⊢
      have hfg : f ≠ g := by
        intro he
        rw [← he] at h1
        unfold skipFiling at h1
        rw [hacc, hfne, hform] at h1
        simp at h1
      rcases List.mem_cons.mp hf with he | hfr
      · exact absurd he hfg
      · exact ih st f hfr hsortrest hdistrest hseen hform hacc hfne hrec hsc hfin
    · have h1' : skipFiling g = false := by simpa using h1
      by_cases h2 : g.accessionNumber ∈ st.seen
      · have hstep : selectLoop c (g :: rest) st = selectLoop c rest st := by
          simp only [selectLoop]
          rw [if_neg h1, if_pos h2]
        rw [hstep] at hfin ⊢
        have hfg : f ≠ g := by
          intro he
          rw [← he] at h2
          exact hseen h2
        rcases List.mem_cons.mp hf with he | hfr
        · exact absurd he hfg
        · exact ih st f hfr hsortrest hdistrest hseen hform hacc hfne hrec hsc hfin
      · by_cases h3 : isPreStart g = true
        · exfalso
          obtain ⟨dg, hdg, hdgne, hdglt⟩ := isPreStart_date h3
          have hcontra : strLe startIsoDate dg = true := by
            rcases List.mem_cons.mp hf with he | hfr
            · rw [he] at hdf
              rw [hdf] at hdg
              injection hdg with hdd
              subst hdd
              exact strLe_trans hsc hcdf
            · have hled : strLe (filingDateKey f) (filingDateKey g) = true :=
                hsortg f hfr
              have hkf : filingDateKey f = df := by
                unfold filingDateKey
                rw [hdf]
                rfl
              have hkg : filingDateKey g = dg := by
                unfold filingDateKey
                rw [hdg]
                rfl
              rw [hkf, hkg] at hled
              exact strLe_trans (strLe_trans hsc hcdf) hled
          rw [strLt_strLe_false hdglt] at hcontra
          exact absurd hcontra (by simp)
        · by_cases h4 : st.selected.length ≥ maxSelectedFilings
          · exfalso
            have hstep : selectLoop c (g :: rest) st = st := by
              simp only [selectLoop]
              rw [if_neg h1, if_neg h2, if_neg h3, if_pos h4]
            rw [hstep] at hfin
            omega
          · have hfg_or : f = g ∨ f ∈ rest := List.mem_cons.mp hf
            have hseen' : ∀ hfr : f ∈ rest,
                f.accessionNumber ∉ g.accessionNumber :: st.seen := by
              intro hfr hmem
              rcases List.mem_cons.mp hmem with he | hm
              · exact hdistg f hfr he.symm
              · exact hseen hm
            by_cases h5 : isRecentFiling c g = true
            · have hstep : selectLoop c (g :: rest) st = selectLoop c rest
                  ⟨st.selected ++ [g], st.monthCounts,
                    g.accessionNumber :: st.seen⟩ := by
                simp only [selectLoop]
                rw [if_neg h1, if_neg h2, if_neg h3, if_neg h4, if_pos h5]
              rw [hstep] at hfin ⊢
              rcases hfg_or with he | hfr
              · obtain ⟨suf, hsuf⟩ := selectLoop_selected_mono c rest
                  ⟨st.selected ++ [g], st.monthCounts,
                    g.accessionNumber :: st.seen⟩
                rw [hsuf]
                subst he
                simp
              · exact ih _ f hfr hsortrest hdistrest (hseen' hfr) hform hacc
                  hfne hrec hsc hfin
            · have hfg : f ≠ g := by
                intro he
                rw [← he] at h5
                exact h5 hrec
              rcases hfg_or with he | hfr
              · exact absurd he hfg
              · cases hmk : monthKeyOf g with
                | none =>
                  have hstep : selectLoop c (g :: rest) st =
                      selectLoop c rest st := by
                    simp only [selectLoop]
                    rw [if_neg h1, if_neg h2, if_neg h3, if_neg h4, if_neg h5, hmk]
                  rw [hstep] at hfin ⊢
                  exact ih st f hfr hsortrest hdistrest hseen hform hacc hfne
                    hrec hsc hfin
                | some mk =>
                  by_cases h6 : st.monthCounts mk ≥ maxSampledFilingsPerMonth
                  · have hstep : selectLoop c (g :: rest) st =
                        selectLoop c rest st := by
                      simp only [selectLoop]
                      rw [if_neg h1, if_neg h2, if_neg h3, if_neg h4, if_neg h5,
                        hmk]
                      dsimp only
                      rw [if_pos h6]
                    rw [hstep] at hfin ⊢
                    exact ih st f hfr hsortrest hdistrest hseen hform hacc hfne
                      hrec hsc hfin
                  · have hstep : selectLoop c (g :: rest) st = selectLoop c rest
                        ⟨st.selected ++ [g],
                          fun k => if k = mk then st.monthCounts mk + 1
                            else st.monthCounts k,
                          g.accessionNumber :: st.seen⟩ := by
                      simp only [selectLoop]
                      rw [if_neg h1, if_neg h2, if_neg h3, if_neg h4, if_neg h5,
                        hmk]
                      dsimp only
                      rw [if_neg h6]
                    rw [hstep] at hfin ⊢
                    exact ih _ f hfr hsortrest hdistrest (hseen' hfr) hform hacc
                      hfne hrec hsc hfin

/-- C8: the candidate-selection loop maintains the sampling invariant:
every selected filing carries a treasury-disclosure form (8-K, 10-Q or
10-K prefix); the selection never exceeds the 200-filing cap; among
selected filings outside the recent window at most 2 share any calendar
month; every dedup-surviving treasury filing dated inside the recent
window is kept (when the input list is date-descending with distinct
accession numbers and the cap is not exhausted); and the loop stops at
the first pre-start filing or once the cap is reached. -/
theorem c8_selection_invariants (c : String) (l : List FilingRef)
    (hsc : strLe startIsoDate c = true) :
    (∀ f ∈ selectFilings c l, isTreasuryDisclosureForm f.form = true) ∧
    (selectFilings c l).length ≤ maxSelectedFilings ∧
    (∀ m, countOldMonth c m (selectFilings c l) ≤ maxSampledFilingsPerMonth) ∧
    (List.Pairwise (fun a b => strLe (filingDateKey b) (filingDateKey a) = true) l →
      List.Pairwise (fun a b => a.accessionNumber ≠ b.accessionNumber) l →
      (selectFilings c l).length < maxSelectedFilings →
      ∀ f ∈ l, isTreasuryDisclosureForm f.form = true →
        f.accessionNumber.isEmpty = false → f.form.isEmpty = false →
        isRecentFiling c f = true → f ∈ selectFilings c l) ∧
    (∀ (g : FilingRef) (rest : List FilingRef) (st : SelState),
      skipFiling g = false → g.accessionNumber ∉ st.seen →
      isPreStart g = true → selectLoop c (g :: rest) st = st) ∧
    (∀ (g : FilingRef) (rest : List FilingRef) (st : SelState),
      skipFiling g = false → g.accessionNumber ∉ st.seen →
      isPreStart g = false → st.selected.length ≥ maxSelectedFilings →
      selectLoop c (g :: rest) st = st) := by
  have hinit : selInv c ⟨[], fun _ => 0, []⟩ := by
    refine ⟨?_, ?_, ?_, ?_, ?_⟩
    · intro f hf
      cases hf
    · simp [maxSelectedFilings]
    · intro f hf
      cases hf
    · intro m
      rfl
    · intro m
      simp [countOldMonth, maxSampledFilingsPerMonth]
  obtain ⟨hforms, hlen, _, _, hmon⟩ := selectLoop_inv c l ⟨[], fun _ => 0, []⟩ hinit
  refine ⟨hforms, hlen, hmon, ?_, ?_, ?_⟩
  · intro hsort hdist hfin f hf hform hacc hfne hrec
    exact selectLoop_keeps_recent c l ⟨[], fun _ => 0, []⟩ f hf hsort hdist
      (by simp) hform hacc hfne hrec hsc hfin
  · intro g rest st h1 h2 h3
    simp only [selectLoop]
    rw [if_neg (by simpa using h1), if_neg h2, if_pos h3]
  · intro g rest st h1 h2 h3 h4
    simp only [selectLoop]
    rw [if_neg (by simpa using h1), if_neg h2, if_neg (by simpa using h3),
      if_pos h4]

theorem c8_selection_invariants_witness :
    strLe startIsoDate ("2025-03-01") = true ∧
    (⟨"0001050446-25-000011", some ("2025-04-10"), some ("doc.htm"), "8-K"⟩ :
      FilingRef) ∈ selectFilings ("2025-03-01")
        [⟨"0001050446-25-000011", some ("2025-04-10"), some ("doc.htm"), "8-K"⟩] :=
  ⟨by decide,
    (c8_selection_invariants ("2025-03-01")
        [⟨"0001050446-25-000011", some ("2025-04-10"), some ("doc.htm"), "8-K"⟩]
        (by decide)).2.2.2.1
      (by simp) (by simp) (by decide)
      ⟨"0001050446-25-000011", some ("2025-04-10"), some ("doc.htm"), "8-K"⟩
      (by simp) (by decide) (by decide) (by decide) (by decide)⟩

theorem filter_true_self {α : Type _} {P : α → Bool} :
    ∀ {l : List α}, (∀ a ∈ l, P a = true) → l.filter P = l := by
  intro l
  induction l with
  | nil => intro _; rfl
  | cons a t ih =>
    intro h
    rw [List.filter_cons, if_pos (h a (List.mem_cons_self a t)),
      ih (fun b hb => h b (List.mem_cons_of_mem a hb))]

theorem filter_false_nil {α : Type _} {P : α → Bool} :
    ∀ {l : List α}, (∀ a ∈ l, P a = false) → l.filter P = [] := by
  intro l
  induction l with
  | nil => intro _; rfl
  | cons a t ih =>
    intro h
    rw [List.filter_cons, if_neg (by simp [h a (List.mem_cons_self a t)]),
      ih (fun b hb => h b (List.mem_cons_of_mem a hb))]

theorem getLast?_append_ne {α : Type _} (l1 l2 : List α) (h : l2 ≠ []) :
    (l1 ++ l2).getLast? = l2.getLast? := by
  induction l1 with
  | nil => rfl
  | cons a t ih =>
    rw [List.cons_append, getLast?_cons, ih]
    cases hg : l2.getLast? with
    | none => exact absurd (List.getLast?_eq_none_iff.mp hg) h
    | some x => rfl

theorem mem_of_getLast?_eq {α : Type _} :
    ∀ {l : List α} {a : α}, l.getLast? = some a → a ∈ l := by
  intro l
  induction l with
  | nil => intro a h; cases h
  | cons b t ih =>
    intro a h
    rw [getLast?_cons] at h
    cases hg : t.getLast? with
    | none =>
      rw [hg] at h
      injection h with h1
      rw [← h1]
      exact List.mem_cons_self b t
    | some x =>
      rw [hg] at h
      injection h with h1
      rw [← h1]
      exact List.mem_cons_of_mem b (ih hg)

theorem getD_last_of_prefix {α : Type _} :
    ∀ (l1 l2 : List α) (d x : α), l1.getLast? = some x →
      (l1 ++ l2).getD (l1.length - 1) d = x := by
  intro l1
  induction l1 with
  | nil =>
    intro l2 d x h
    cases h
  | cons a t ih =>
    intro l2 d x h
    cases t with
    | nil =>
      rw [List.getLast?_singleton] at h
      injection h with h1
    | cons b t2 =>
      rw [List.getLast?_cons_cons] at h
      have hlen : (a :: b :: t2).length - 1 = ((b :: t2).length - 1) + 1 := by
        simp only [List.length_cons]
        omega
      rw [List.cons_append, hlen, List.getD_cons_succ]
      exact ih l2 d x h

theorem dropWhile_head_false {α : Type _} {p : α → Bool} :
    ∀ {l : List α} {a : α} {t : List α},
      l.dropWhile p = a :: t → p a = false := by
  intro l
  induction l with
  | nil => intro a t h; cases h
  | cons b bs ih =>
    intro a t h
    rw [List.dropWhile_cons] at h
    split at h
    · exact ih h
    · rename_i hpb
      injection h with h1 _
      rw [← h1]
      simpa using hpb

theorem stepLoop_spec (startX endX : Int) :
    ∀ (rest : List MstrTreasurySnapshotPoint)
      (current : MstrTreasurySnapshotPoint) (points : List (Int × ℚ)),
    List.Pairwise (fun a b => a.xUtcMs ≤ b.xUtcMs) rest →
    (∀ s ∈ rest, current.xUtcMs ≤ s.xUtcMs) →
    (∀ s ∈ rest, startX < s.xUtcMs) →
    max startX current.xUtcMs ≤ endX →
    (∀ p ∈ points, p.1 ≤ max startX current.xUtcMs) →
    points.getLast? =
      some (max startX current.xUtcMs, current.avgPurchasePriceUsd) →
    ∃ suffix,
      stepLoop startX endX rest current points = points ++ suffix ∧
      (∀ p ∈ suffix, max startX current.xUtcMs ≤ p.1 ∧ p.1 ≤ endX) ∧
      List.Pairwise (fun (a b : Int × ℚ) => a.1 ≤ b.1) suffix ∧
      (∀ t : Int, max startX current.xUtcMs ≤ t → t ≤ endX →
        (((points ++ suffix).filter (fun p => p.1 ≤ t)).getLast?).map
            (fun p => p.2) =
          (((current :: rest).filter (fun s => s.xUtcMs ≤ t)).getLast?).map
            (fun s => s.avgPurchasePriceUsd)) := by
  intro rest
  induction rest with
  | nil =>
    intro current points hsort hcur hgt hle hpts hlast
    refine ⟨[(endX, current.avgPurchasePriceUsd)], rfl, ?_, ?_, ?_⟩
    · intro p hp
      rcases List.mem_singleton.mp hp with rfl
      exact ⟨hle, le_refl endX⟩
    · simp
    · intro t h1 h2
      have hcx : current.xUtcMs ≤ t := le_trans (le_max_right _ _) h1
      rw [List.filter_append,
        filter_true_self (fun p hp => decide_eq_true (le_trans (hpts p hp) h1))]
      have hrhs : (([current] : List MstrTreasurySnapshotPoint).filter
          (fun s => s.xUtcMs ≤ t)) = [current] :=
        filter_true_self (fun s hs => by
          rcases List.mem_singleton.mp hs with rfl
          exact decide_eq_true hcx)
      rw [hrhs]
      by_cases he : endX ≤ t
      · rw [filter_true_self (fun p hp => by
          rcases List.mem_singleton.mp hp with rfl
          exact decide_eq_true he)]
        rw [getLast?_append_ne _ _ (by simp)]
        rfl
      · rw [filter_false_nil (fun p hp => by
          rcases List.mem_singleton.mp hp with rfl
          exact decide_eq_false he)]
        rw [List.append_nil, hlast]
        rfl
  | cons next rest2 ih =>
    intro current points hsort hcur hgt hle hpts hlast
    obtain ⟨hnext_rest, hsort2⟩ := List.pairwise_cons.mp hsort
    have hnmem : next ∈ next :: rest2 := List.mem_cons_self next rest2
    have hgtn : startX < next.xUtcMs := hgt next hnmem
    have hcn : current.xUtcMs ≤ next.xUtcMs := hcur next hnmem
    have hlx : max startX current.xUtcMs ≤ next.xUtcMs :=
      max_le (le_of_lt hgtn) hcn
    have hstep0 : stepLoop startX endX (next :: rest2) current points =
        if endX < next.xUtcMs then
          points ++ [(endX, current.avgPurchasePriceUsd)]
        else stepLoop startX endX rest2 next
          (points ++ [(next.xUtcMs, current.avgPurchasePriceUsd),
            (next.xUtcMs, next.avgPurchasePriceUsd)]) := by
      simp only [stepLoop]
      rw [if_neg (not_lt.mpr (le_of_lt hgtn))]
    by_cases hbr : endX < next.xUtcMs
    · rw [if_pos hbr] at hstep0
      refine ⟨[(endX, current.avgPurchasePriceUsd)], hstep0, ?_, ?_, ?_⟩
      · intro p hp
        rcases List.mem_singleton.mp hp with rfl
        exact ⟨hle, le_refl endX⟩
      · simp
      · intro t h1 h2
        have hcx : current.xUtcMs ≤ t := le_trans (le_max_right _ _) h1
        have hnt : ¬ next.xUtcMs ≤ t := fun hc =>
          absurd (le_trans hc h2) (not_le.mpr hbr)
        rw [List.filter_append,
          filter_true_self
            (fun p hp => decide_eq_true (le_trans (hpts p hp) h1))]
        have hrhs : ((current :: next :: rest2).filter
            (fun s => s.xUtcMs ≤ t)) = [current] := by
          simp only [List.filter_cons]
          rw [if_pos (decide_eq_true hcx),
            if_neg (by simp only [decide_eq_true_eq]; exact hnt),
            filter_false_nil (fun s hs => decide_eq_false
              (fun hc => hnt (le_trans (hnext_rest s hs) hc)))]
        rw [hrhs]
        by_cases he : endX ≤ t
        · rw [filter_true_self (fun p hp => by
            rcases List.mem_singleton.mp hp with rfl
            exact decide_eq_true he)]
          rw [getLast?_append_ne _ _ (by simp)]
          rfl
        · rw [filter_false_nil (fun p hp => by
            rcases List.mem_singleton.mp hp with rfl
            exact decide_eq_false he)]
          rw [List.append_nil, hlast]
          rfl
    · rw [if_neg hbr] at hstep0
      have hnle : next.xUtcMs ≤ endX := not_lt.mp hbr
      have hmaxn : max startX next.xUtcMs = next.xUtcMs :=
        max_eq_right (le_of_lt hgtn)
      obtain ⟨suffix, heq, hbnd, hpw, hval⟩ := ih next
        (points ++ [(next.xUtcMs, current.avgPurchasePriceUsd),
          (next.xUtcMs, next.avgPurchasePriceUsd)])
        hsort2 hnext_rest
        (fun s hs => hgt s (List.mem_cons_of_mem next hs))
        (by rw [hmaxn]; exact hnle)
        (by
          intro p hp
          rw [hmaxn]
          rcases List.mem_append.mp hp with hp | hp
          · exact le_trans (hpts p hp) hlx
          · rcases List.mem_cons.mp hp with rfl | hp
            · exact le_refl _
            · rcases List.mem_singleton.mp hp with rfl
              exact le_refl _)
        (by
          rw [hmaxn, getLast?_append_ne _ _ (by simp)]
          rfl)
      refine ⟨(next.xUtcMs, current.avgPurchasePriceUsd) ::
        (next.xUtcMs, next.avgPurchasePriceUsd) :: suffix, ?_, ?_, ?_, ?_⟩
      · rw [hstep0, heq, List.append_assoc]
        rfl
      · intro p hp
        rcases List.mem_cons.mp hp with rfl | hp
        · exact ⟨hlx, hnle⟩
        rcases List.mem_cons.mp hp with rfl | hp
        · exact ⟨hlx, hnle⟩
        · have := hbnd p hp
          rw [hmaxn] at this
          exact ⟨le_trans hlx this.1, this.2⟩
      · refine List.pairwise_cons.mpr ⟨?_, List.pairwise_cons.mpr ⟨?_, hpw⟩⟩
        · intro b hb
          rcases List.mem_cons.mp hb with rfl | hb
          · exact le_refl _
          · have := (hbnd b hb).1
            rw [hmaxn] at this
            exact this
        · intro b hb
          have := (hbnd b hb).1
          rw [hmaxn] at this
          exact this
      · intro t h1 h2
        have hli : points ++ ((next.xUtcMs, current.avgPurchasePriceUsd) ::
            (next.xUtcMs, next.avgPurchasePriceUsd) :: suffix) =
            (points ++ [(next.xUtcMs, current.avgPurchasePriceUsd),
              (next.xUtcMs, next.avgPurchasePriceUsd)]) ++ suffix := by
          rw [List.append_assoc]
          rfl
        have hcx : current.xUtcMs ≤ t := le_trans (le_max_right _ _) h1
        by_cases htn : next.xUtcMs ≤ t
        · rw [hli, hval t (by rw [hmaxn]; exact htn) h2]
          have hfn : ((next :: rest2).filter (fun s => s.xUtcMs ≤ t)) =
              next :: rest2.filter (fun s => s.xUtcMs ≤ t) := by
            simp only [List.filter_cons]
            rw [if_pos (decide_eq_true htn)]
          have hfc : ((current :: next :: rest2).filter
              (fun s => s.xUtcMs ≤ t)) =
              current :: (next :: rest2).filter (fun s => s.xUtcMs ≤ t) := by
            rw [List.filter_cons]
            rw [if_pos (decide_eq_true hcx)]
          rw [hfc, hfn]
          have hgl : (current :: next ::
              rest2.filter (fun s => s.xUtcMs ≤ t)).getLast? =
              (next :: rest2.filter (fun s => s.xUtcMs ≤ t)).getLast? := by
            rw [getLast?_cons]
            cases hg : (next ::
                rest2.filter (fun s => s.xUtcMs ≤ t)).getLast? with
            | none => exact absurd (List.getLast?_eq_none_iff.mp hg) (by simp)
            | some x => rfl
          rw [hgl]
        · have hsfx : ∀ p ∈ ((next.xUtcMs, current.avgPurchasePriceUsd) ::
              (next.xUtcMs, next.avgPurchasePriceUsd) :: suffix),
              ¬ ((p : Int × ℚ).1 ≤ t) := by
            intro p hp
            rcases List.mem_cons.mp hp with rfl | hp
            · exact htn
            rcases List.mem_cons.mp hp with rfl | hp
            · exact htn
            · intro hc
              have := (hbnd p hp).1
              rw [hmaxn] at this
              exact htn (le_trans this hc)
          rw [List.filter_append,
            filter_false_nil (fun p hp => decide_eq_false (hsfx p hp)),
            List.append_nil,
            filter_true_self
              (fun p hp => decide_eq_true (le_trans (hpts p hp) h1)),
            hlast]
          have hrhs : ((current :: next :: rest2).filter
              (fun s => s.xUtcMs ≤ t)) = [current] := by
            simp only [List.filter_cons]
            rw [if_pos (decide_eq_true hcx),
              if_neg (by simp only [decide_eq_true_eq]; exact htn),
              filter_false_nil (fun s hs => decide_eq_false
                (fun hc => htn (le_trans (hnext_rest s hs) hc)))]
          rw [hrhs]
          rfl

/-- C1: for a non-empty ascending snapshot history and a target range with
startX < endX, the emitted step series has non-decreasing x-values; at any
timestamp t between the first emitted point and the range end, the step
value equals the average purchase price of the latest snapshot at or
before t; and when some snapshot lies at or before the range start, the
series opens at x = startX with the value of the latest snapshot at or
before the start. -/
theorem c1_step_series_correctness (l : List MstrTreasurySnapshotPoint)
    (startX endX : Int) (hne : l ≠ [])
    (hsort : List.Pairwise (fun a b => a.xUtcMs ≤ b.xUtcMs) l)
    (hlt : startX < endX) :
    List.Pairwise (fun (a b : Int × ℚ) => a.1 ≤ b.1)
      (buildStepPointsFromTreasuryHistory l startX endX) ∧
    (∀ p0, (buildStepPointsFromTreasuryHistory l startX endX).head? = some p0 →
      ∀ t : Int, p0.1 ≤ t → t ≤ endX →
        stepValueAt (buildStepPointsFromTreasuryHistory l startX endX) t =
          (latestSnapshotAt l t).map (fun s => s.avgPurchasePriceUsd)) ∧
    ((∃ s ∈ l, s.xUtcMs ≤ startX) →
      ∃ s0, latestSnapshotAt l startX = some s0 ∧
        (buildStepPointsFromTreasuryHistory l startX endX).head? =
          some (startX, s0.avgPurchasePriceUsd)) := by
  obtain ⟨h0, tl, rfl⟩ := List.exists_cons_of_ne_nil hne
  by_cases hP : h0.xUtcMs ≤ startX
  · -- some snapshot lies at or before the range start
    have htwcons : (h0 :: tl).takeWhile (fun s => s.xUtcMs ≤ startX) =
        h0 :: tl.takeWhile (fun s => s.xUtcMs ≤ startX) := by
      simp only [List.takeWhile_cons]
      rw [if_pos (decide_eq_true hP)]
    have htwne : (h0 :: tl).takeWhile (fun s => s.xUtcMs ≤ startX) ≠ [] := by
      rw [htwcons]
      exact List.cons_ne_nil _ _
    obtain ⟨cur, hcur⟩ : ∃ x,
        ((h0 :: tl).takeWhile (fun s => s.xUtcMs ≤ startX)).getLast? = some x := by
      cases hg : ((h0 :: tl).takeWhile (fun s => s.xUtcMs ≤ startX)).getLast? with
      | none => exact absurd (List.getLast?_eq_none_iff.mp hg) htwne
      | some x => exact ⟨x, rfl⟩
    have hcurmem : cur ∈ (h0 :: tl).takeWhile (fun s => s.xUtcMs ≤ startX) :=
      mem_of_getLast?_eq hcur
    have hcurle : cur.xUtcMs ≤ startX := by
      simpa using List.mem_takeWhile_imp hcurmem
    have happ : (h0 :: tl).takeWhile (fun s => s.xUtcMs ≤ startX) ++
        (h0 :: tl).dropWhile (fun s => s.xUtcMs ≤ startX) = h0 :: tl :=
      List.takeWhile_append_dropWhile _ _
    have htwle : ∀ a ∈ (h0 :: tl).takeWhile (fun s => s.xUtcMs ≤ startX),
        a.xUtcMs ≤ startX := fun a ha => by
      simpa using List.mem_takeWhile_imp ha
    have hdwsorted : List.Pairwise (fun a b => a.xUtcMs ≤ b.xUtcMs)
        ((h0 :: tl).dropWhile (fun s => s.xUtcMs ≤ startX)) :=
      List.Pairwise.sublist (List.dropWhile_sublist _) hsort
    have hdwgt : ∀ a ∈ (h0 :: tl).dropWhile (fun s => s.xUtcMs ≤ startX),
        startX < a.xUtcMs := by
      cases hdw : (h0 :: tl).dropWhile (fun s => s.xUtcMs ≤ startX) with
      | nil =>
        intro a ha
        exact absurd ha (List.not_mem_nil a)
      | cons d dt =>
        intro a ha
        have hdgt : startX < d.xUtcMs := by
          have hdfalse := dropWhile_head_false hdw
          have : ¬ (d.xUtcMs ≤ startX) := by simpa using hdfalse
          exact not_le.mp this
        rw [hdw] at hdwsorted
        obtain ⟨hd_rest, _⟩ := List.pairwise_cons.mp hdwsorted
        rcases List.mem_cons.mp ha with rfl | ha
        · exact hdgt
        · exact lt_of_lt_of_le hdgt (hd_rest a ha)
    have hk1 : 1 ≤ ((h0 :: tl).takeWhile (fun s => s.xUtcMs ≤ startX)).length := by
      rw [htwcons, List.length_cons]
      omega
    have hgetD : (h0 :: tl).getD
        (((h0 :: tl).takeWhile (fun s => s.xUtcMs ≤ startX)).length - 1) h0 =
        cur := by
      have h1 := getD_last_of_prefix
        ((h0 :: tl).takeWhile (fun s => s.xUtcMs ≤ startX))
        ((h0 :: tl).dropWhile (fun s => s.xUtcMs ≤ startX)) h0 cur hcur
      rw [happ] at h1
      exact h1
    have hdrop : (h0 :: tl).drop
        (((h0 :: tl).takeWhile (fun s => s.xUtcMs ≤ startX)).length - 1 + 1) =
        (h0 :: tl).dropWhile (fun s => s.xUtcMs ≤ startX) := by
      have hlen : ((h0 :: tl).takeWhile (fun s => s.xUtcMs ≤ startX)).length
          - 1 + 1 =
          ((h0 :: tl).takeWhile (fun s => s.xUtcMs ≤ startX)).length := by
        omega
      rw [hlen]
      have h2 := List.drop_left
        ((h0 :: tl).takeWhile (fun s => s.xUtcMs ≤ startX))
        ((h0 :: tl).dropWhile (fun s => s.xUtcMs ≤ startX))
      rw [happ] at h2
      exact h2
    have hmax : max startX cur.xUtcMs = startX := max_eq_left hcurle
    have hres : buildStepPointsFromTreasuryHistory (h0 :: tl) startX endX =
        stepLoop startX endX
          ((h0 :: tl).dropWhile (fun s => s.xUtcMs ≤ startX)) cur
          [(startX, cur.avgPurchasePriceUsd)] := by
      simp only [buildStepPointsFromTreasuryHistory]
      rw [if_neg (not_le.mpr hlt), hgetD, hmax,
        if_neg (not_lt.mpr (le_of_lt hlt)), hdrop]
    obtain ⟨suffix, heq, hbnd, hpw, hval⟩ := stepLoop_spec startX endX
      ((h0 :: tl).dropWhile (fun s => s.xUtcMs ≤ startX)) cur
      [(startX, cur.avgPurchasePriceUsd)]
      hdwsorted
      (fun s hs => le_trans hcurle (le_of_lt (hdwgt s hs)))
      hdwgt
      (by rw [hmax]; exact le_of_lt hlt)
      (by
        intro p hp
        rcases List.mem_singleton.mp hp with rfl
        rw [hmax])
      (by rw [hmax]; rfl)
    have hresultA : buildStepPointsFromTreasuryHistory (h0 :: tl) startX endX =
        [(startX, cur.avgPurchasePriceUsd)] ++ suffix := hres.trans heq
    have hresultC : buildStepPointsFromTreasuryHistory (h0 :: tl) startX endX =
        (startX, cur.avgPurchasePriceUsd) :: suffix := hresultA
    have hlatest : ∀ t : Int, startX ≤ t →
        ((h0 :: tl).filter (fun s => s.xUtcMs ≤ t)) =
          (h0 :: tl).takeWhile (fun s => s.xUtcMs ≤ startX) ++
          ((h0 :: tl).dropWhile (fun s => s.xUtcMs ≤ startX)).filter
            (fun s => s.xUtcMs ≤ t) := by
      intro t ht
      conv_lhs => rw [← happ]
      rw [List.filter_append,
        filter_true_self (fun a ha => decide_eq_true (le_trans (htwle a ha) ht))]
    have hlat0 : latestSnapshotAt (h0 :: tl) startX = some cur := by
      unfold latestSnapshotAt
      rw [hlatest startX (le_refl startX),
        filter_false_nil (fun a ha => decide_eq_false (not_le.mpr (hdwgt a ha))),
        List.append_nil, hcur]
    refine ⟨?_, ?_, ?_⟩
    · rw [hresultC]
      refine List.pairwise_cons.mpr ⟨?_, hpw⟩
      intro b hb
      have := (hbnd b hb).1
      rw [hmax] at this
      exact this
    · intro p0 hp0 t ht1 ht2
      rw [hresultC, List.head?_cons] at hp0
      injection hp0 with hp0'
      have hp0'' : p0 = (startX, cur.avgPurchasePriceUsd) := hp0'.symm
      subst hp0''
      have ht1' : startX ≤ t := ht1
      unfold stepValueAt latestSnapshotAt
      rw [hresultA, hval t (by rw [hmax]; exact ht1') ht2, hlatest t ht1']
      have hfc : ((cur :: (h0 :: tl).dropWhile
          (fun s => s.xUtcMs ≤ startX)).filter (fun s => s.xUtcMs ≤ t)) =
          cur :: ((h0 :: tl).dropWhile (fun s => s.xUtcMs ≤ startX)).filter
            (fun s => s.xUtcMs ≤ t) := by
        rw [List.filter_cons]
        rw [if_pos (decide_eq_true (le_trans hcurle ht1'))]
      rw [hfc]
      cases hdf : ((h0 :: tl).dropWhile (fun s => s.xUtcMs ≤ startX)).filter
          (fun s => s.xUtcMs ≤ t) with
      | nil =>
        rw [List.append_nil, hcur]
        rfl
      | cons e et =>
        rw [getLast?_append_ne _ _ (by simp), getLast?_cons]
        cases hg : (e :: et).getLast? with
        | none => exact absurd (List.getLast?_eq_none_iff.mp hg) (by simp)
        | some x => rfl
    · intro _
      exact ⟨cur, hlat0, by rw [hresultC]; rfl⟩
  · -- no snapshot at or before the range start
    have hgt0 : startX < h0.xUtcMs := not_le.mp hP
    have htw : (h0 :: tl).takeWhile (fun s => s.xUtcMs ≤ startX) = [] := by
      simp only [List.takeWhile_cons]
      rw [if_neg (by simp only [decide_eq_true_eq]; exact hP)]
    have hres : buildStepPointsFromTreasuryHistory (h0 :: tl) startX endX =
        if endX < h0.xUtcMs then [] else
          stepLoop startX endX tl h0 [(h0.xUtcMs, h0.avgPurchasePriceUsd)] := by
      simp only [buildStepPointsFromTreasuryHistory]
      rw [if_neg (not_le.mpr hlt), htw]
      rw [List.length_nil, Nat.zero_sub, List.getD_cons_zero,
        max_eq_right (le_of_lt hgt0), List.drop_succ_cons, List.drop_zero]
    obtain ⟨hh0_tl, hsort_tl⟩ := List.pairwise_cons.mp hsort
    have hnosnap : ¬ ∃ s ∈ (h0 :: tl), s.xUtcMs ≤ startX := by
      rintro ⟨s, hs, hsx⟩
      rcases List.mem_cons.mp hs with rfl | hs
      · exact hP hsx
      · exact hP (le_trans (hh0_tl s hs) hsx)
    by_cases hend : endX < h0.xUtcMs
    · have hresE : buildStepPointsFromTreasuryHistory (h0 :: tl) startX endX =
          [] := by
        rw [hres, if_pos hend]
      refine ⟨?_, ?_, ?_⟩
      · rw [hresE]
        exact List.Pairwise.nil
      · intro p0 hp0
        rw [hresE] at hp0
        simp at hp0
      · intro hex
        exact absurd hex hnosnap
    · have hh0le : h0.xUtcMs ≤ endX := not_lt.mp hend
      have hmaxB : max startX h0.xUtcMs = h0.xUtcMs :=
        max_eq_right (le_of_lt hgt0)
      obtain ⟨suffix, heq, hbnd, hpw, hval⟩ := stepLoop_spec startX endX tl h0
        [(h0.xUtcMs, h0.avgPurchasePriceUsd)]
        hsort_tl hh0_tl
        (fun s hs => lt_of_lt_of_le hgt0 (hh0_tl s hs))
        (by rw [hmaxB]; exact hh0le)
        (by
          intro p hp
          rcases List.mem_singleton.mp hp with rfl
          rw [hmaxB])
        (by rw [hmaxB]; rfl)
      have hresA : buildStepPointsFromTreasuryHistory (h0 :: tl) startX endX =
          [(h0.xUtcMs, h0.avgPurchasePriceUsd)] ++ suffix := by
        rw [hres, if_neg hend, heq]
      have hresC : buildStepPointsFromTreasuryHistory (h0 :: tl) startX endX =
          (h0.xUtcMs, h0.avgPurchasePriceUsd) :: suffix := hresA
      refine ⟨?_, ?_, ?_⟩
      · rw [hresC]
        refine List.pairwise_cons.mpr ⟨?_, hpw⟩
        intro b hb
        have := (hbnd b hb).1
        rw [hmaxB] at this
        exact this
      · intro p0 hp0 t ht1 ht2
        rw [hresC, List.head?_cons] at hp0
        injection hp0 with hp0'
        have hp0'' : p0 = (h0.xUtcMs, h0.avgPurchasePriceUsd) := hp0'.symm
        subst hp0''
        have ht1' : h0.xUtcMs ≤ t := ht1
        unfold stepValueAt latestSnapshotAt
        rw [hresA]
        exact hval t (by rw [hmaxB]; exact ht1') ht2
      · intro hex
        exact absurd hex hnosnap

/-- Witness for C1 at a two-snapshot history with the range start between
the two snapshot timestamps. -/
theorem c1_step_series_correctness_witness :
    ([(⟨⟨"MicroStrategy", "MSTR", none, none, "", 100, 1000, 10⟩, 100⟩ :
        MstrTreasurySnapshotPoint),
      ⟨⟨"MicroStrategy", "MSTR", none, none, "", 200, 4000, 20⟩, 200⟩] ≠ []) ∧
    (150 : Int) < 300 ∧
    (∃ s0, latestSnapshotAt
        [(⟨⟨"MicroStrategy", "MSTR", none, none, "", 100, 1000, 10⟩, 100⟩ :
            MstrTreasurySnapshotPoint),
          ⟨⟨"MicroStrategy", "MSTR", none, none, "", 200, 4000, 20⟩, 200⟩]
        150 = some s0 ∧
      (buildStepPointsFromTreasuryHistory
        [(⟨⟨"MicroStrategy", "MSTR", none, none, "", 100, 1000, 10⟩, 100⟩ :
            MstrTreasurySnapshotPoint),
          ⟨⟨"MicroStrategy", "MSTR", none, none, "", 200, 4000, 20⟩, 200⟩]
        150 300).head? = some (150, s0.avgPurchasePriceUsd)) := by
  refine ⟨by simp, by decide, ?_⟩
  exact (c1_step_series_correctness
      [(⟨⟨"MicroStrategy", "MSTR", none, none, "", 100, 1000, 10⟩, 100⟩ :
          MstrTreasurySnapshotPoint),
        ⟨⟨"MicroStrategy", "MSTR", none, none, "", 200, 4000, 20⟩, 200⟩]
      150 300 (by simp)
      (by
        refine List.pairwise_cons.mpr ⟨?_, ?_⟩
        · intro b hb
          rcases List.mem_singleton.mp hb with rfl
          decide
        · exact List.pairwise_cons.mpr
            ⟨fun b hb => absurd hb (List.not_mem_nil b), List.Pairwise.nil⟩)
      (by decide)).2.2
    ⟨⟨⟨"MicroStrategy", "MSTR", none, none, "", 100, 1000, 10⟩, 100⟩,
      List.mem_cons_self _ _, by decide⟩

end CryptoPortfolio
